import Mathlib

/-!
Shallow embedding of the tiny-ledger in-memory store
(package internal/store and internal/models of the repository).

Modelling conventions:
* Go float64 amounts are modelled as rationals: the store only adds,
  subtracts and compares amounts, and the specification treats amounts as
  opaque real numbers (rounding behaviour is out of scope).
* Go time.Time timestamps are modelled as integers with the same linear
  order; Before/After become < on the integers.
* uuid.New() and time.Now() are impure; AddTransaction takes the generated
  id and the current time as explicit oracle arguments.
* The Go map users is modelled as a function String to Option userLedger;
  the mutex only serialises calls and has no sequential content.
* sort.SliceStable with less = Timestamp.Before is the unique stable
  reordering that is non-decreasing by timestamp; List.insertionSort with
  the reflexive relation txLE computes exactly that reordering.
* sort.Search n pred returns the least index with pred true (n when none)
  whenever pred is monotone, which holds on the sorted slices the store
  maintains; List.findIdx has exactly this least-index semantics.
* A Go slice expression l[a:b] (and make with a negative length) panics
  when the bounds are bad; functions that slice return an Option and panic
  is modelled as none.
-/

inductive TransactionType where
  | deposit
  | withdrawal
deriving DecidableEq

structure TransactionRecord where
  id : Nat
  amount : ℚ
  type : TransactionType
  timestamp : ℤ
  description : String
deriving DecidableEq

/-- models.NewTransactionRecord, with the uuid and clock reads passed in. -/
def NewTransactionRecord (txType : TransactionType) (amount : ℚ)
    (description : String) (id : Nat) (now : ℤ) : TransactionRecord :=
  ⟨id, amount, txType, now, description⟩

structure userLedger where
  transactions : List TransactionRecord
  balance : ℚ
deriving DecidableEq

def emptyLedger : userLedger := ⟨[], 0⟩

structure LedgerStore where
  users : String → Option userLedger

def NewLedgerStore : LedgerStore := ⟨fun _ => none⟩

/-- Ordering relation used by the stable sort: timestamp comparison. -/
def txLE (a b : TransactionRecord) : Prop := a.timestamp ≤ b.timestamp

instance : DecidableRel txLE := fun a b => Int.decLe a.timestamp b.timestamp

instance : IsTotal TransactionRecord txLE := ⟨fun a b => Int.le_total a.timestamp b.timestamp⟩

instance : IsTrans TransactionRecord txLE := ⟨fun _ _ _ h1 h2 => le_trans h1 h2⟩

instance : IsRefl TransactionRecord txLE := ⟨fun a => le_refl a.timestamp⟩

/-- Go sort.SliceStable on the transaction slice with
less i j = Timestamp i before Timestamp j. -/
def sortStable (l : List TransactionRecord) : List TransactionRecord :=
  List.insertionSort txLE l

/-- LedgerStore.AddTransaction: exclusive lock, lazy ledger creation,
insufficient-funds check, balance update, append and stable re-sort. -/
def AddTransaction (s : LedgerStore) (userId : String) (txType : TransactionType)
    (amount : ℚ) (description : String) (id : Nat) (now : ℤ) :
    LedgerStore × Except String TransactionRecord :=
  let ledger := (s.users userId).getD emptyLedger
  if txType = TransactionType.withdrawal ∧ ledger.balance < amount then
    (⟨fun u => if u = userId then some ledger else s.users u⟩,
      Except.error "insufficient funds")
  else
    let tx := NewTransactionRecord txType amount description id now
    let balance :=
      if txType = TransactionType.deposit then ledger.balance + amount
      else ledger.balance - amount
    (⟨fun u => if u = userId then
        some ⟨sortStable (ledger.transactions ++ [tx]), balance⟩
      else s.users u⟩,
      Except.ok tx)

/-- LedgerStore.AddTransactionWithTime: applies a caller-supplied record
with no insufficient-funds check and no return value. -/
def AddTransactionWithTime (s : LedgerStore) (userId : String)
    (tx : TransactionRecord) : LedgerStore :=
  let ledger := (s.users userId).getD emptyLedger
  let balance :=
    if tx.type = TransactionType.deposit then ledger.balance + tx.amount
    else if tx.type = TransactionType.withdrawal then ledger.balance - tx.amount
    else ledger.balance
  ⟨fun u => if u = userId then
      some ⟨sortStable (ledger.transactions ++ [tx]), balance⟩
    else s.users u⟩

/-- LedgerStore.GetBalance: shared lock; 0 and no error for an unknown
account, the stored balance and no error otherwise. -/
def GetBalance (s : LedgerStore) (userId : String) : ℚ × Option String :=
  match s.users userId with
  | none => (0, none)
  | some ledger => (ledger.balance, none)

structure PaginatedTransactions where
  Transactions : List TransactionRecord
  TotalCount : ℤ
deriving DecidableEq

/-- The sort.Search for the start bound: the least index whose timestamp is
not before startTime, 0 when no startTime is given. -/
def lowIdx (l : List TransactionRecord) (startTime : Option ℤ) : ℕ :=
  match startTime with
  | none => 0
  | some st => l.findIdx fun tx => decide (st ≤ tx.timestamp)

/-- The sort.Search for the end bound: the least index whose timestamp is
after endTime, the length when no endTime is given. -/
def highIdx (l : List TransactionRecord) (endTime : Option ℤ) : ℕ :=
  match endTime with
  | none => l.length
  | some et => l.findIdx fun tx => decide (et < tx.timestamp)

/-- A Go subslice l[a:b] of a copy; none models the bounds-check panic. -/
def goSlice (l : List TransactionRecord) (a b : ℤ) : Option (List TransactionRecord) :=
  if 0 ≤ a ∧ a ≤ b ∧ b ≤ (l.length : ℤ) then
    some ((l.take b.toNat).drop a.toNat)
  else none

/-- Two's-complement wrap-around of a 64-bit Go int: Go's signed
arithmetic operators legally overflow by wrapping, so every +, - and *
on int values is modelled modulo 2^64 into [-2^63, 2^63). -/
def wrap64 (x : ℤ) : ℤ := (x + 2 ^ 63) % 2 ^ 64 - 2 ^ 63

/-- The value range of a 64-bit Go int. -/
def inInt64 (x : ℤ) : Prop := -(2 ^ 63) ≤ x ∧ x < 2 ^ 63

instance : DecidablePred inInt64 := fun x =>
  inferInstanceAs (Decidable (-(2 ^ 63) ≤ x ∧ x < 2 ^ 63))

/-- Go: if page < 1, page = 1 (defensive normalization in the store);
a comparison, so no overflow. -/
def pageClamp (page : ℤ) : ℤ := if page < 1 then 1 else page

/-- Go local pageStartIdx = startIdx + (page-1)*pageSize, with each int
operation wrapping on overflow. -/
def pageStartIdx (l : List TransactionRecord) (startTime : Option ℤ)
    (page pageSize : ℤ) : ℤ :=
  wrap64 ((lowIdx l startTime : ℤ) +
    wrap64 (wrap64 (pageClamp page - 1) * pageSize))

/-- Go local pageEndIdx = pageStartIdx + pageSize (wrapping int addition),
clamped down to endIdx. -/
def pageEndIdx (l : List TransactionRecord) (startTime endTime : Option ℤ)
    (page pageSize : ℤ) : ℤ :=
  if wrap64 (pageStartIdx l startTime page pageSize + pageSize) >
      (highIdx l endTime : ℤ)
  then (highIdx l endTime : ℤ)
  else wrap64 (pageStartIdx l startTime page pageSize + pageSize)

/-- Go local filteredCount = endIdx - startIdx. -/
def filteredCount (l : List TransactionRecord)
    (startTime endTime : Option ℤ) : ℤ :=
  (highIdx l endTime : ℤ) - (lowIdx l startTime : ℤ)

/-- The body of GetPaginatedTransactions on one account history: range
filter by the two binary searches, then page slicing. -/
def pageCore (l : List TransactionRecord) (startTime endTime : Option ℤ)
    (page pageSize : ℤ) : Option PaginatedTransactions :=
  if pageStartIdx l startTime page pageSize ≥ (highIdx l endTime : ℤ) then
    some ⟨[], filteredCount l startTime endTime⟩
  else
    match goSlice l (pageStartIdx l startTime page pageSize)
        (pageEndIdx l startTime endTime page pageSize) with
    | none => none
    | some pageTransactions =>
        some ⟨pageTransactions, filteredCount l startTime endTime⟩

/-- LedgerStore.GetPaginatedTransactions: an unknown account yields an
empty page with total 0, otherwise the range-and-page algorithm runs on
the account's history. -/
def GetPaginatedTransactions (s : LedgerStore) (userId : String)
    (startTime endTime : Option ℤ) (page pageSize : ℤ) :
    Option PaginatedTransactions :=
  match s.users userId with
  | none => some ⟨[], 0⟩
  | some ledger => pageCore ledger.transactions startTime endTime page pageSize

/-- A call to AddTransaction / AddTransactionV2, with the uuid and clock
values its impure constructors read. -/
structure AddCall where
  userId : String
  txType : TransactionType
  amount : ℚ
  description : String
  id : Nat
  now : ℤ
deriving DecidableEq

/-- The transactions of one account as observed through the store; an
absent account reads as the empty history. -/
def txsOf (s : LedgerStore) (u : String) : List TransactionRecord :=
  ((s.users u).getD emptyLedger).transactions

/-- The balance of one account as observed through the store; an absent
account reads as balance 0. -/
def balanceOf (s : LedgerStore) (u : String) : ℚ :=
  ((s.users u).getD emptyLedger).balance

/-!
The V2 store keeps each account history in a red-black tree keyed by
timestamp (github.com/emirpasic/gods/trees/redblacktree with
utils.TimeComparator).  The tree is modelled by its in-order sequence of
key-value entries: Put inserts a new entry at its ordered position or
replaces the value when the key is already present, and Iterator walks the
entries in ascending key order.
-/

structure userLedgerV2 where
  tree : List (ℤ × TransactionRecord)
  balance : ℚ
deriving DecidableEq

structure LedgerStoreV2 where
  users : String → Option userLedgerV2

def NewStoreV2 : LedgerStoreV2 := ⟨fun _ => none⟩

/-- redblacktree Put observed through the in-order entry sequence:
insert at the ordered key position, replacing on an equal key. -/
def treePut (k : ℤ) (v : TransactionRecord) :
    List (ℤ × TransactionRecord) → List (ℤ × TransactionRecord)
  | [] => [(k, v)]
  | e :: rest =>
      if k < e.1 then (k, v) :: e :: rest
      else if k = e.1 then (k, v) :: rest
      else e :: treePut k v rest

/-- LedgerStoreV2.AddTransactionV2: same protocol as AddTransaction but
the record is stored with tree.Put keyed by its timestamp. -/
def AddTransactionV2 (s : LedgerStoreV2) (userId : String)
    (txType : TransactionType) (amount : ℚ) (description : String)
    (id : Nat) (now : ℤ) : LedgerStoreV2 × Except String TransactionRecord :=
  let ledger := (s.users userId).getD ⟨[], 0⟩
  if txType = TransactionType.withdrawal ∧ ledger.balance < amount then
    (⟨fun u => if u = userId then some ledger else s.users u⟩,
      Except.error "insufficient funds")
  else
    let tx := NewTransactionRecord txType amount description id now
    let balance :=
      if txType = TransactionType.deposit then ledger.balance + amount
      else ledger.balance - amount
    (⟨fun u => if u = userId then
        some ⟨treePut tx.timestamp tx ledger.tree, balance⟩
      else s.users u⟩,
      Except.ok tx)

/-- The iterator loop of GetPaginatedTransactionsV2: walk entries in key
order, skip keys before startTime, stop at the first key after endTime,
collect the values in between. -/
def collectInRange (startTime endTime : Option ℤ) :
    List (ℤ × TransactionRecord) → List TransactionRecord
  | [] => []
  | e :: rest =>
      if (match startTime with | some st => decide (e.1 < st) | none => false) then
        collectInRange startTime endTime rest
      else if (match endTime with | some et => decide (et < e.1) | none => false) then
        []
      else e.2 :: collectInRange startTime endTime rest

/-- Go local start = (page-1)*pageSize in GetPaginatedTransactionsV2,
with each int operation wrapping on overflow. -/
def pageStartV2 (page pageSize : ℤ) : ℤ :=
  wrap64 (wrap64 (pageClamp page - 1) * pageSize)

/-- The body of GetPaginatedTransactionsV2 on one tree: collect the
records inside the time range by an in-order walk, then slice out the
requested page from the collected list. -/
def pageCoreV2 (t : List (ℤ × TransactionRecord)) (startTime endTime : Option ℤ)
    (page pageSize : ℤ) : Option PaginatedTransactions :=
  if pageStartV2 page pageSize ≥ ((collectInRange startTime endTime t).length : ℤ) then
    some ⟨[], ((collectInRange startTime endTime t).length : ℤ)⟩
  else
    match goSlice (collectInRange startTime endTime t) (pageStartV2 page pageSize)
        (if wrap64 (pageStartV2 page pageSize + pageSize) >
            ((collectInRange startTime endTime t).length : ℤ)
         then ((collectInRange startTime endTime t).length : ℤ)
         else wrap64 (pageStartV2 page pageSize + pageSize)) with
    | none => none
    | some pageTransactions =>
        some ⟨pageTransactions, ((collectInRange startTime endTime t).length : ℤ)⟩

/-- LedgerStoreV2.GetPaginatedTransactionsV2. -/
def GetPaginatedTransactionsV2 (s : LedgerStoreV2) (userId : String)
    (startTime endTime : Option ℤ) (page pageSize : ℤ) :
    Option PaginatedTransactions :=
  match s.users userId with
  | none => some ⟨[], 0⟩
  | some ledger => pageCoreV2 ledger.tree startTime endTime page pageSize

/-- LedgerStoreV2.GetBalanceV2: identical shape to GetBalance. -/
def GetBalanceV2 (s : LedgerStoreV2) (userId : String) : ℚ × Option String :=
  match s.users userId with
  | none => (0, none)
  | some ledger => (ledger.balance, none)

def emptyLedgerV2 : userLedgerV2 := ⟨[], 0⟩

def balanceOfV2 (s : LedgerStoreV2) (u : String) : ℚ :=
  ((s.users u).getD emptyLedgerV2).balance

def treeOf (s : LedgerStoreV2) (u : String) : List (ℤ × TransactionRecord) :=
  ((s.users u).getD emptyLedgerV2).tree

/-- Driving the sorted-slice store through a sequence of AddTransaction
calls. -/
def runAdds : LedgerStore → List AddCall → LedgerStore
  | s, [] => s
  | s, c :: rest =>
      runAdds (AddTransaction s c.userId c.txType c.amount c.description c.id c.now).1 rest

/-- The accept/reject results the sorted-slice store hands back along a
call sequence. -/
def addResults : LedgerStore → List AddCall → List (Except String TransactionRecord)
  | _, [] => []
  | s, c :: rest =>
      (AddTransaction s c.userId c.txType c.amount c.description c.id c.now).2 ::
        addResults (AddTransaction s c.userId c.txType c.amount c.description c.id c.now).1 rest

/-- Driving the red-black-tree store through the same call sequence. -/
def runAddsV2 : LedgerStoreV2 → List AddCall → LedgerStoreV2
  | s, [] => s
  | s, c :: rest =>
      runAddsV2 (AddTransactionV2 s c.userId c.txType c.amount c.description c.id c.now).1 rest

/-- The accept/reject results the red-black-tree store hands back. -/
def addResultsV2 : LedgerStoreV2 → List AddCall → List (Except String TransactionRecord)
  | _, [] => []
  | s, c :: rest =>
      (AddTransactionV2 s c.userId c.txType c.amount c.description c.id c.now).2 ::
        addResultsV2 (AddTransactionV2 s c.userId c.txType c.amount c.description c.id c.now).1 rest

/-!
Operation sequences.  A store state is reachable when it is the result of
folding a list of mutation calls over the fresh store; AddTransaction
calls carry the uuid and clock values their impure constructors read.
-/

inductive Op where
  | add (userId : String) (txType : TransactionType) (amount : ℚ)
      (description : String) (id : Nat) (now : ℤ)
  | addWithTime (userId : String) (tx : TransactionRecord)
deriving DecidableEq

def applyOp (s : LedgerStore) : Op → LedgerStore
  | Op.add u ty a d i n => (AddTransaction s u ty a d i n).1
  | Op.addWithTime u tx => AddTransactionWithTime s u tx

def runOps (ops : List Op) : LedgerStore := ops.foldl applyOp NewLedgerStore

def isAddOp : Op → Prop
  | Op.add _ _ _ _ _ _ => True
  | Op.addWithTime _ _ => False

/-- The amount of an operation as it enters the balance: positive for a
deposit, negative for a withdrawal. -/
def signedAmount (ty : TransactionType) (amt : ℚ) : ℚ :=
  if ty = TransactionType.deposit then amt else -amt

/-- What one call contributes to the balance of account a in state s:
its signed amount when it targets a and succeeds, 0 otherwise. -/
def opContribution (s : LedgerStore) (a : String) : Op → ℚ
  | Op.add u ty amt d i n =>
      if u = a then
        match (AddTransaction s u ty amt d i n).2 with
        | Except.ok _ => signedAmount ty amt
        | Except.error _ => 0
      else 0
  | Op.addWithTime u tx => if u = a then signedAmount tx.type tx.amount else 0

/-- Sum of the contributions of a call sequence to account a, threading
the store state through the sequence. -/
def netSucceeded (a : String) : LedgerStore → List Op → ℚ
  | _, [] => 0
  | s, op :: rest => opContribution s a op + netSucceeded a (applyOp s op) rest

def opUser : Op → String
  | Op.add u _ _ _ _ _ => u
  | Op.addWithTime u _ => u

instance : DecidablePred isAddOp := fun op =>
  match op with
  | Op.add _ _ _ _ _ _ => Decidable.isTrue trivial
  | Op.addWithTime _ _ => Decidable.isFalse id

/-! Branch characterizations of the mutation operations. -/

theorem GetBalance_fst (s : LedgerStore) (u : String) :
    (GetBalance s u).1 = balanceOf s u := by
  unfold GetBalance balanceOf
  cases s.users u <;> rfl

theorem GetBalance_snd (s : LedgerStore) (u : String) :
    (GetBalance s u).2 = none := by
  unfold GetBalance
  cases s.users u <;> rfl

theorem balanceOf_new (a : String) : balanceOf NewLedgerStore a = 0 := rfl

theorem txsOf_new (a : String) : txsOf NewLedgerStore a = [] := rfl

theorem addTx_error (s : LedgerStore) (u : String) (ty : TransactionType)
    (amt : ℚ) (d : String) (i : Nat) (n : ℤ)
    (h : ty = TransactionType.withdrawal ∧ balanceOf s u < amt) :
    AddTransaction s u ty amt d i n =
      (⟨fun v => if v = u then some ((s.users u).getD emptyLedger) else s.users v⟩,
        Except.error "insufficient funds") := by
  have h' : ty = TransactionType.withdrawal ∧
      ((s.users u).getD emptyLedger).balance < amt := h
  simp only [AddTransaction]
  rw [if_pos h']

theorem addTx_ok (s : LedgerStore) (u : String) (ty : TransactionType)
    (amt : ℚ) (d : String) (i : Nat) (n : ℤ)
    (h : ¬(ty = TransactionType.withdrawal ∧ balanceOf s u < amt)) :
    AddTransaction s u ty amt d i n =
      (⟨fun v => if v = u then
          some ⟨sortStable (txsOf s u ++ [NewTransactionRecord ty amt d i n]),
            balanceOf s u + signedAmount ty amt⟩
        else s.users v⟩,
        Except.ok (NewTransactionRecord ty amt d i n)) := by
  have h' : ¬(ty = TransactionType.withdrawal ∧
      ((s.users u).getD emptyLedger).balance < amt) := h
  simp only [AddTransaction]
  rw [if_neg h']
  cases ty <;>
    simp [signedAmount, txsOf, balanceOf, sub_eq_add_neg, NewTransactionRecord]

theorem addWithTime_eq (s : LedgerStore) (u : String) (tx : TransactionRecord) :
    AddTransactionWithTime s u tx =
      ⟨fun v => if v = u then
          some ⟨sortStable (txsOf s u ++ [tx]),
            balanceOf s u + signedAmount tx.type tx.amount⟩
        else s.users v⟩ := by
  unfold AddTransactionWithTime
  cases htx : tx.type <;>
    simp [signedAmount, htx, txsOf, balanceOf, sub_eq_add_neg]

theorem users_applyOp_ne (s : LedgerStore) (op : Op) (v : String)
    (h : v ≠ opUser op) : (applyOp s op).users v = s.users v := by
  cases op with
  | add u ty amt d i n =>
      by_cases hc : ty = TransactionType.withdrawal ∧ balanceOf s u < amt
      · show ((AddTransaction s u ty amt d i n).1).users v = s.users v
        rw [addTx_error s u ty amt d i n hc]
        exact if_neg h
      · show ((AddTransaction s u ty amt d i n).1).users v = s.users v
        rw [addTx_ok s u ty amt d i n hc]
        exact if_neg h
  | addWithTime u tx =>
      show (AddTransactionWithTime s u tx).users v = s.users v
      rw [addWithTime_eq]
      exact if_neg h

theorem balanceOf_applyOp (s : LedgerStore) (op : Op) (a : String) :
    balanceOf (applyOp s op) a = balanceOf s a + opContribution s a op := by
  cases op with
  | add u ty amt d i n =>
      show balanceOf (AddTransaction s u ty amt d i n).1 a = _
      by_cases hc : ty = TransactionType.withdrawal ∧ balanceOf s u < amt
      · rw [addTx_error s u ty amt d i n hc]
        by_cases hau : a = u
        · subst hau
          simp [balanceOf, opContribution, addTx_error s a ty amt d i n hc]
        · have : u ≠ a := fun he => hau he.symm
          simp [balanceOf, opContribution, if_neg hau, if_neg this]
      · rw [addTx_ok s u ty amt d i n hc]
        by_cases hau : a = u
        · subst hau
          simp [balanceOf, opContribution, addTx_ok s a ty amt d i n hc]
        · have : u ≠ a := fun he => hau he.symm
          simp [balanceOf, opContribution, if_neg hau, if_neg this]
  | addWithTime u tx =>
      show balanceOf (AddTransactionWithTime s u tx) a = _
      rw [addWithTime_eq]
      by_cases hau : a = u
      · subst hau
        simp [balanceOf, opContribution]
      · have : u ≠ a := fun he => hau he.symm
        simp [balanceOf, opContribution, if_neg hau, if_neg this]

theorem txsOf_applyOp_sorted (s : LedgerStore) (op : Op) (v : String)
    (hv : (txsOf s v).Sorted txLE) : (txsOf (applyOp s op) v).Sorted txLE := by
  by_cases h : v = opUser op
  · cases op with
    | add u ty amt d i n =>
        show ((AddTransaction s u ty amt d i n).1.users v).getD emptyLedger
          |>.transactions.Sorted txLE
        by_cases hc : ty = TransactionType.withdrawal ∧ balanceOf s u < amt
        · rw [addTx_error s u ty amt d i n hc]
          simp only [opUser] at h
          subst h
          simpa [txsOf] using hv
        · rw [addTx_ok s u ty amt d i n hc]
          simp only [opUser] at h
          subst h
          simpa [txsOf, sortStable] using List.sorted_insertionSort txLE _
    | addWithTime u tx =>
        show ((AddTransactionWithTime s u tx).users v).getD emptyLedger
          |>.transactions.Sorted txLE
        rw [addWithTime_eq]
        simp only [opUser] at h
        subst h
        simpa [txsOf, sortStable] using List.sorted_insertionSort txLE _
  · unfold txsOf
    rw [users_applyOp_ne s op v h]
    exact hv

theorem foldl_sorted (ops : List Op) :
    ∀ s : LedgerStore, (∀ v, (txsOf s v).Sorted txLE) →
      ∀ v, (txsOf (ops.foldl applyOp s) v).Sorted txLE := by
  induction ops with
  | nil => intro s hs v; exact hs v
  | cons op rest ih =>
      intro s hs v
      exact ih (applyOp s op) (fun w => txsOf_applyOp_sorted s op w (hs w)) v

theorem runOps_sorted (ops : List Op) (v : String) :
    (txsOf (runOps ops) v).Sorted txLE :=
  foldl_sorted ops NewLedgerStore (fun _ => List.sorted_nil) v

theorem netSucceeded_foldl (ops : List Op) :
    ∀ (s : LedgerStore) (a : String),
      balanceOf (ops.foldl applyOp s) a = balanceOf s a + netSucceeded a s ops := by
  induction ops with
  | nil => intro s a; simp [netSucceeded]
  | cons op rest ih =>
      intro s a
      simp only [List.foldl_cons, netSucceeded]
      rw [ih (applyOp s op) a, balanceOf_applyOp]
      ring

/-- Nonnegativity of the amount carried by a call (the validation layer
only lets positive amounts through to the store). -/
def opAmountNonneg : Op → Prop
  | Op.add _ _ amt _ _ _ => 0 ≤ amt
  | Op.addWithTime _ tx => 0 ≤ tx.amount

instance : DecidablePred opAmountNonneg := fun op =>
  match op with
  | Op.add _ _ amt _ _ _ => inferInstanceAs (Decidable (0 ≤ amt))
  | Op.addWithTime _ tx => inferInstanceAs (Decidable (0 ≤ tx.amount))

theorem nonneg_step (s : LedgerStore) (op : Op) (h1 : isAddOp op)
    (h2 : opAmountNonneg op) (hs : ∀ v, 0 ≤ balanceOf s v) (v : String) :
    0 ≤ balanceOf (applyOp s op) v := by
  rw [balanceOf_applyOp]
  cases op with
  | addWithTime u tx => exact absurd h1 id
  | add u ty amt d i n =>
      have h2' : 0 ≤ amt := h2
      by_cases hu : u = v
      · subst hu
        by_cases hc : ty = TransactionType.withdrawal ∧ balanceOf s u < amt
        · have hsnd : (AddTransaction s u ty amt d u.length n).2 =
              Except.error "insufficient funds" := by
            rw [addTx_error s u ty amt d u.length n hc]
          simp only [opContribution, if_pos rfl]
          rw [addTx_error s u ty amt d i n hc]
          simpa using hs u
        · have hsnd : (AddTransaction s u ty amt d i n).2 =
              Except.ok (NewTransactionRecord ty amt d i n) := by
            rw [addTx_ok s u ty amt d i n hc]
          have hcontrib : opContribution s u (Op.add u ty amt d i n) =
              signedAmount ty amt := by
            simp [opContribution, hsnd]
          rw [hcontrib]
          cases ty with
          | deposit =>
              have h4 : signedAmount TransactionType.deposit amt = amt := rfl
              rw [h4]
              linarith [hs u]
          | withdrawal =>
              have hle : amt ≤ balanceOf s u := by
                by_contra hlt
                exact hc ⟨rfl, lt_of_not_le hlt⟩
              have h4 : signedAmount TransactionType.withdrawal amt = -amt := rfl
              rw [h4]
              linarith [hs u]
      · simp only [opContribution, if_neg hu, add_zero]
        exact hs v

theorem foldl_nonneg (ops : List Op) :
    ∀ s : LedgerStore, (∀ op ∈ ops, isAddOp op ∧ opAmountNonneg op) →
      (∀ v, 0 ≤ balanceOf s v) → ∀ v, 0 ≤ balanceOf (ops.foldl applyOp s) v := by
  induction ops with
  | nil => intro s _ hs v; exact hs v
  | cons op rest ih =>
      intro s hops hs v
      have hop := hops op (List.mem_cons_self op rest)
      exact ih (applyOp s op)
        (fun o ho => hops o (List.mem_cons_of_mem op ho))
        (fun w => nonneg_step s op hop.1 hop.2 hs w) v

/-- Claim C1: for every account and every sequence of AddTransaction calls,
the balance reported by GetBalance equals the sum of the deposit amounts
minus the sum of the withdrawal amounts over exactly the calls on that
account that succeeded. -/
theorem C1_balance_conservation (ops : List Op) (a : String)
    (_hadds : ∀ op ∈ ops, isAddOp op) :
    (GetBalance (runOps ops) a).1 = netSucceeded a NewLedgerStore ops := by
  rw [GetBalance_fst, runOps, netSucceeded_foldl, balanceOf_new, zero_add]

theorem C1_balance_conservation_witness :
    (∀ op ∈ [Op.add "acct" TransactionType.deposit 100 "d" 0 0,
        Op.add "acct" TransactionType.withdrawal 150 "w" 1 1,
        Op.add "acct" TransactionType.withdrawal 30 "w2" 2 2], isAddOp op) ∧
    (GetBalance (runOps [Op.add "acct" TransactionType.deposit 100 "d" 0 0,
        Op.add "acct" TransactionType.withdrawal 150 "w" 1 1,
        Op.add "acct" TransactionType.withdrawal 30 "w2" 2 2]) "acct").1 =
      netSucceeded "acct" NewLedgerStore
        [Op.add "acct" TransactionType.deposit 100 "d" 0 0,
         Op.add "acct" TransactionType.withdrawal 150 "w" 1 1,
         Op.add "acct" TransactionType.withdrawal 30 "w2" 2 2] :=
  ⟨by simp [isAddOp],
    C1_balance_conservation _ "acct" (by simp [isAddOp])⟩

/-- Claim C2, counterexample to the statement as written: one
AddTransactionWithTime call carrying a withdrawal of 5 on a fresh account
drives the observable balance to -5 < 0, because AddTransactionWithTime
performs no insufficient-funds check. -/
theorem C2_counterexample :
    (GetBalance (runOps [Op.addWithTime "acct"
        ⟨7, 5, TransactionType.withdrawal, 3, "w"⟩]) "acct").1 < 0 := by
  simp only [runOps, List.foldl_cons, List.foldl_nil, applyOp]
  rw [GetBalance_fst, addWithTime_eq]
  simp [balanceOf, NewLedgerStore, emptyLedger, signedAmount]

/-- Claim C2 (amended): in every state reachable by AddTransaction calls
alone, with the nonnegative amounts the validation layer guarantees, every
account balance observed through GetBalance is nonnegative.
AddTransactionWithTime is excluded: it applies caller-supplied records
without the insufficient-funds check. -/
theorem C2_no_overdraft (ops : List Op)
    (h : ∀ op ∈ ops, isAddOp op ∧ opAmountNonneg op) (a : String) :
    0 ≤ (GetBalance (runOps ops) a).1 := by
  rw [GetBalance_fst]
  exact foldl_nonneg ops NewLedgerStore h
    (fun v => by rw [balanceOf_new]) a

theorem C2_no_overdraft_witness :
    (∀ op ∈ [Op.add "acct" TransactionType.deposit 100 "d" 0 0,
        Op.add "acct" TransactionType.withdrawal 150 "w" 1 1], isAddOp op ∧ opAmountNonneg op) ∧
    0 ≤ (GetBalance (runOps [Op.add "acct" TransactionType.deposit 100 "d" 0 0,
        Op.add "acct" TransactionType.withdrawal 150 "w" 1 1]) "acct").1 :=
  ⟨by norm_num [isAddOp, opAmountNonneg],
    C2_no_overdraft _ (by norm_num [isAddOp, opAmountNonneg]) "acct"⟩

/-- Claim C3: AddTransaction returns the insufficient-funds error exactly
when the kind is Withdrawal and the amount exceeds the current balance;
on error every account's observable balance and history are unchanged,
and on success the freshly built record is returned, the account history
gains exactly that one record, and the balance moves by the signed
amount. -/
theorem C3_insufficient_funds (s : LedgerStore) (u : String)
    (ty : TransactionType) (amt : ℚ) (d : String) (i : Nat) (n : ℤ) :
    ((AddTransaction s u ty amt d i n).2 = Except.error "insufficient funds" ↔
      ty = TransactionType.withdrawal ∧ balanceOf s u < amt) ∧
    ((AddTransaction s u ty amt d i n).2 = Except.error "insufficient funds" →
      ∀ v, balanceOf (AddTransaction s u ty amt d i n).1 v = balanceOf s v ∧
        txsOf (AddTransaction s u ty amt d i n).1 v = txsOf s v) ∧
    (∀ tx, (AddTransaction s u ty amt d i n).2 = Except.ok tx →
      tx = NewTransactionRecord ty amt d i n ∧
      (txsOf (AddTransaction s u ty amt d i n).1 u).Perm (tx :: txsOf s u) ∧
      balanceOf (AddTransaction s u ty amt d i n).1 u =
        balanceOf s u + signedAmount ty amt) := by
  by_cases hc : ty = TransactionType.withdrawal ∧ balanceOf s u < amt
  · rw [addTx_error s u ty amt d i n hc]
    refine ⟨by simpa using hc, fun _ v => ?_, by simp⟩
    by_cases hv : v = u
    · subst hv
      simp [balanceOf, txsOf]
    · simp [balanceOf, txsOf, if_neg hv]
  · rw [addTx_ok s u ty amt d i n hc]
    refine ⟨by simpa using hc, by simp, fun tx htx => ?_⟩
    have htx' : tx = NewTransactionRecord ty amt d i n := by
      simpa using htx.symm
    subst htx'
    refine ⟨rfl, ?_, by simp [balanceOf, txsOf]⟩
    have h5 : txsOf (⟨fun v => if v = u then
        some ⟨sortStable (txsOf s u ++ [NewTransactionRecord ty amt d i n]),
          balanceOf s u + signedAmount ty amt⟩
      else s.users v⟩ : LedgerStore) u
        = sortStable (txsOf s u ++ [NewTransactionRecord ty amt d i n]) := by
      simp [txsOf]
    rw [h5]
    exact (List.perm_insertionSort txLE _).trans
      (List.perm_append_singleton _ _)

theorem C3_insufficient_funds_witness :
    (AddTransaction NewLedgerStore "acct" TransactionType.withdrawal 5 "w" 1 2).2 =
      Except.error "insufficient funds" ∧
    txsOf (AddTransaction NewLedgerStore "acct"
      TransactionType.withdrawal 5 "w" 1 2).1 "acct" = txsOf NewLedgerStore "acct" := by
  have hiff := C3_insufficient_funds NewLedgerStore "acct"
    TransactionType.withdrawal 5 "w" 1 2
  have herr : (AddTransaction NewLedgerStore "acct"
      TransactionType.withdrawal 5 "w" 1 2).2 = Except.error "insufficient funds" :=
    hiff.1.mpr ⟨rfl, by rw [balanceOf_new]; norm_num⟩
  exact ⟨herr, (hiff.2.1 herr "acct").2⟩

/-- Claim C6, counterexample to the statement as written: a caller-supplied
withdrawal of 5 against a fresh account (balance 0) is NOT rejected by
AddTransactionWithTime — the record is stored and the balance becomes
negative, contradicting the claimed insufficient-funds rejection. -/
theorem C6_counterexample :
    (GetBalance (AddTransactionWithTime NewLedgerStore "acct"
        ⟨7, 5, TransactionType.withdrawal, 3, "w"⟩) "acct").1 < 0 ∧
    txsOf (AddTransactionWithTime NewLedgerStore "acct"
        ⟨7, 5, TransactionType.withdrawal, 3, "w"⟩) "acct" =
      [⟨7, 5, TransactionType.withdrawal, 3, "w"⟩] := by
  rw [GetBalance_fst, addWithTime_eq]
  constructor
  · simp [balanceOf, NewLedgerStore, emptyLedger, signedAmount]
  · simp [txsOf, NewLedgerStore, emptyLedger, sortStable,
      List.insertionSort, List.orderedInsert]

/-- Claim C6 (amended): AddTransactionWithTime behaves like AddTransaction
with a caller-supplied record except that it performs NO insufficient-funds
check: the record is applied unconditionally (so a withdrawal larger than
the balance is accepted and the balance goes negative), the balance moves
by the signed amount, the history gains exactly the supplied record, the
sequence stays sorted by timestamp, and other accounts are untouched. -/
theorem C6_add_with_time (s : LedgerStore) (u : String) (tx : TransactionRecord) :
    balanceOf (AddTransactionWithTime s u tx) u =
      balanceOf s u + signedAmount tx.type tx.amount ∧
    (txsOf (AddTransactionWithTime s u tx) u).Perm (tx :: txsOf s u) ∧
    (txsOf (AddTransactionWithTime s u tx) u).Sorted txLE ∧
    ∀ v, v ≠ u → (AddTransactionWithTime s u tx).users v = s.users v := by
  rw [addWithTime_eq]
  have h5 : txsOf (⟨fun v => if v = u then
      some ⟨sortStable (txsOf s u ++ [tx]),
        balanceOf s u + signedAmount tx.type tx.amount⟩
    else s.users v⟩ : LedgerStore) u = sortStable (txsOf s u ++ [tx]) := by
    simp [txsOf]
  refine ⟨by simp [balanceOf], ?_, ?_, fun v hv => by simp [if_neg hv]⟩
  · rw [h5]
    exact (List.perm_insertionSort txLE _).trans
      (List.perm_append_singleton _ _)
  · rw [h5]
    exact List.sorted_insertionSort txLE _

theorem C6_add_with_time_witness :
    balanceOf (AddTransactionWithTime NewLedgerStore "acct"
        ⟨7, 5, TransactionType.deposit, 3, "d"⟩) "acct" =
      balanceOf NewLedgerStore "acct" + signedAmount TransactionType.deposit 5 ∧
    (AddTransactionWithTime NewLedgerStore "acct"
        ⟨7, 5, TransactionType.deposit, 3, "d"⟩).users "other" =
      NewLedgerStore.users "other" :=
  ⟨(C6_add_with_time NewLedgerStore "acct" ⟨7, 5, TransactionType.deposit, 3, "d"⟩).1,
   (C6_add_with_time NewLedgerStore "acct" ⟨7, 5, TransactionType.deposit, 3, "d"⟩).2.2.2
     "other" (by decide)⟩

/-- Claim C7: GetBalance never returns an error, and an account the store
has never seen reads as balance 0 (absence is zero balance, not a fault). -/
theorem C7_unknown_account_zero (s : LedgerStore) (u : String) :
    (GetBalance s u).2 = none ∧ (s.users u = none → (GetBalance s u).1 = 0) := by
  refine ⟨GetBalance_snd s u, fun h => ?_⟩
  rw [GetBalance_fst]
  simp [balanceOf, h, emptyLedger]

theorem C7_unknown_account_zero_witness :
    (GetBalance NewLedgerStore "ghost").2 = none ∧
    (GetBalance NewLedgerStore "ghost").1 = 0 :=
  ⟨(C7_unknown_account_zero NewLedgerStore "ghost").1,
   (C7_unknown_account_zero NewLedgerStore "ghost").2 rfl⟩

/-! Range filter machinery: on a sorted history the two binary searches
delimit exactly the records inside the time window. -/

/-- The specification's range condition on one record. -/
def matchesFilter (startTime endTime : Option ℤ) (tx : TransactionRecord) : Bool :=
  (match startTime with
   | none => true
   | some st => decide (st ≤ tx.timestamp)) &&
  (match endTime with
   | none => true
   | some et => decide (tx.timestamp ≤ et))

theorem filter_ge_eq_drop (st : ℤ) :
    ∀ l : List TransactionRecord, l.Sorted txLE →
      l.filter (fun tx => decide (st ≤ tx.timestamp)) =
        l.drop (l.findIdx fun tx => decide (st ≤ tx.timestamp)) := by
  intro l
  induction l with
  | nil => intro h; rfl
  | cons x xs ih =>
      intro hs
      rw [List.sorted_cons] at hs
      by_cases hx : st ≤ x.timestamp
      · have h0 : List.findIdx (fun tx => decide (st ≤ tx.timestamp)) (x :: xs) = 0 := by
          rw [List.findIdx_cons]
          simp [hx]
        have h1 : List.filter (fun tx => decide (st ≤ tx.timestamp)) (x :: xs) =
            x :: List.filter (fun tx => decide (st ≤ tx.timestamp)) xs := by
          rw [List.filter_cons]
          simp [hx]
        have h2 : List.filter (fun tx => decide (st ≤ tx.timestamp)) xs = xs :=
          List.filter_eq_self.mpr fun a ha =>
            decide_eq_true (le_trans hx (hs.1 a ha))
        rw [h1, h2, h0, List.drop_zero]
      · have h0 : List.findIdx (fun tx => decide (st ≤ tx.timestamp)) (x :: xs) =
            List.findIdx (fun tx => decide (st ≤ tx.timestamp)) xs + 1 := by
          rw [List.findIdx_cons]
          simp [hx]
        have h1 : List.filter (fun tx => decide (st ≤ tx.timestamp)) (x :: xs) =
            List.filter (fun tx => decide (st ≤ tx.timestamp)) xs := by
          rw [List.filter_cons]
          simp [hx]
        rw [h1, h0, List.drop_succ_cons, ih hs.2]

theorem filter_le_eq_take (et : ℤ) :
    ∀ l : List TransactionRecord, l.Sorted txLE →
      l.filter (fun tx => decide (tx.timestamp ≤ et)) =
        l.take (l.findIdx fun tx => decide (et < tx.timestamp)) := by
  intro l
  induction l with
  | nil => intro h; rfl
  | cons x xs ih =>
      intro hs
      rw [List.sorted_cons] at hs
      by_cases hx : et < x.timestamp
      · have h0 : List.findIdx (fun tx => decide (et < tx.timestamp)) (x :: xs) = 0 := by
          rw [List.findIdx_cons]
          simp [hx]
        have h1 : List.filter (fun tx => decide (tx.timestamp ≤ et)) (x :: xs) =
            List.filter (fun tx => decide (tx.timestamp ≤ et)) xs := by
          rw [List.filter_cons]
          simp
          omega
        have h2 : List.filter (fun tx => decide (tx.timestamp ≤ et)) xs = [] :=
          List.filter_eq_nil_iff.mpr fun a ha => by
            have h3 : x.timestamp ≤ a.timestamp := hs.1 a ha
            simp only [decide_eq_true_eq]
            omega
        rw [h1, h2, h0, List.take_zero]
      · have hx' : x.timestamp ≤ et := not_lt.mp hx
        have h0 : List.findIdx (fun tx => decide (et < tx.timestamp)) (x :: xs) =
            List.findIdx (fun tx => decide (et < tx.timestamp)) xs + 1 := by
          rw [List.findIdx_cons]
          simp [hx]
        have h1 : List.filter (fun tx => decide (tx.timestamp ≤ et)) (x :: xs) =
            x :: List.filter (fun tx => decide (tx.timestamp ≤ et)) xs := by
          rw [List.filter_cons]
          simp [hx']
        rw [h1, h0, List.take_succ_cons, ih hs.2]

theorem findIdx_take (p : TransactionRecord → Bool) :
    ∀ (l : List TransactionRecord) (m : ℕ),
      (l.take m).findIdx p = min (l.findIdx p) m := by
  intro l
  induction l with
  | nil => intro m; simp
  | cons x xs ih =>
      intro m
      cases m with
      | zero => simp
      | succ k =>
          rw [List.take_succ_cons, List.findIdx_cons, List.findIdx_cons]
          by_cases hx : p x = true
          · simp [hx]
          · simp only [hx, cond_false]
            rw [ih k]
            omega

theorem lowIdx_le_length (l : List TransactionRecord) (ost : Option ℤ) :
    lowIdx l ost ≤ l.length := by
  cases ost with
  | none => exact Nat.zero_le _
  | some st => exact List.findIdx_le_length _

theorem highIdx_le_length (l : List TransactionRecord) (oet : Option ℤ) :
    highIdx l oet ≤ l.length := by
  cases oet with
  | none => exact le_refl _
  | some et => exact List.findIdx_le_length _

theorem lowIdx_le_highIdx (l : List TransactionRecord) (st et : ℤ)
    (hste : st ≤ et) : lowIdx l (some st) ≤ highIdx l (some et) := by
  unfold lowIdx highIdx
  by_contra hlt
  push_neg at hlt
  have hh : l.findIdx (fun tx => decide (et < tx.timestamp)) < l.length :=
    lt_of_lt_of_le hlt (List.findIdx_le_length _)
  have hp : decide (et < (l.get ⟨_, hh⟩).timestamp) = true := by
    have := @List.findIdx_getElem _ (fun tx => decide (et < tx.timestamp)) l hh
    simpa using this
  have hfail : decide (st ≤ (l.get ⟨_, hh⟩).timestamp) = false := by
    have := @List.not_of_lt_findIdx _ (fun tx => decide (st ≤ tx.timestamp)) l
      (l.findIdx fun tx => decide (et < tx.timestamp)) hlt
    simpa using this
  simp only [decide_eq_true_eq] at hp
  simp only [decide_eq_false_iff_not] at hfail
  omega

theorem lowIdx_le_highIdx_compat (l : List TransactionRecord)
    (ost oet : Option ℤ) (hc : ∀ st ∈ ost, ∀ et ∈ oet, st ≤ et) :
    lowIdx l ost ≤ highIdx l oet := by
  cases ost with
  | none => exact Nat.zero_le _
  | some st =>
      cases oet with
      | none => exact lowIdx_le_length l (some st)
      | some et => exact lowIdx_le_highIdx l st et (hc st rfl et rfl)

theorem filter_matches_eq_slice (l : List TransactionRecord)
    (hs : l.Sorted txLE) (ost oet : Option ℤ)
    (hc : ∀ st ∈ ost, ∀ et ∈ oet, st ≤ et) :
    l.filter (matchesFilter ost oet) =
      (l.take (highIdx l oet)).drop (lowIdx l ost) := by
  cases ost with
  | none =>
      cases oet with
      | none => simp [matchesFilter, lowIdx, highIdx]
      | some et =>
          simp only [lowIdx, highIdx, List.drop_zero]
          rw [show matchesFilter none (some et) =
              fun tx => decide (tx.timestamp ≤ et) from by
            funext tx
            simp [matchesFilter]]
          exact filter_le_eq_take et l hs
  | some st =>
      cases oet with
      | none =>
          simp only [lowIdx, highIdx, List.take_length]
          rw [show matchesFilter (some st) none =
              fun tx => decide (st ≤ tx.timestamp) from by
            funext tx
            simp [matchesFilter]]
          exact filter_ge_eq_drop st l hs
      | some et =>
          have hste : st ≤ et := hc st rfl et rfl
          have h1 : l.filter (matchesFilter (some st) (some et)) =
              (l.filter fun tx => decide (tx.timestamp ≤ et)).filter
                (fun tx => decide (st ≤ tx.timestamp)) := by
            rw [List.filter_filter]
            apply List.filter_congr
            intro a _
            simp [matchesFilter, Bool.and_comm]
          rw [h1, filter_le_eq_take et l hs]
          have hpre : ((l.take (l.findIdx fun tx =>
              decide (et < tx.timestamp))).Sorted txLE) :=
            List.Pairwise.sublist (List.take_sublist _ _) hs
          rw [filter_ge_eq_drop st _ hpre, findIdx_take]
          have hlh := lowIdx_le_highIdx l st et hste
          simp only [lowIdx, highIdx] at hlh
          rw [min_eq_left hlh]
          rfl

theorem length_filter_matches (l : List TransactionRecord)
    (hs : l.Sorted txLE) (ost oet : Option ℤ)
    (hc : ∀ st ∈ ost, ∀ et ∈ oet, st ≤ et) :
    (l.filter (matchesFilter ost oet)).length =
      highIdx l oet - lowIdx l ost := by
  rw [filter_matches_eq_slice l hs ost oet hc, List.length_drop,
    List.length_take, min_eq_left (highIdx_le_length l oet)]

/-! Page slices of a sorted history. -/

theorem slice_sublist_slice (l : List TransactionRecord) (a a' b b' : ℕ)
    (ha : a' ≤ a) (hb : b ≤ b') :
    ((l.take b).drop a).Sublist ((l.take b').drop a') := by
  have h1 : l.take b = (l.take b').take b := by
    rw [List.take_take, min_eq_left hb]
  rw [h1]
  refine (List.Sublist.drop (List.take_sublist b (l.take b')) a).trans ?_
  have h3 : (l.take b').drop a = ((l.take b').drop a').drop (a - a') := by
    rw [List.drop_drop]
    congr 1
    omega
  rw [h3]
  exact List.drop_sublist _ _

theorem sorted_slice_append (l : List TransactionRecord) (hs : l.Sorted txLE)
    (a1 b1 a2 b2 : ℕ) (hb : b1 ≤ a2) :
    (((l.take b1).drop a1) ++ ((l.take b2).drop a2)).Sorted txLE := by
  have hsub : (((l.take b1).drop a1) ++ ((l.take b2).drop a2)).Sublist
      ((l.take a2) ++ (l.drop a2)) := by
    apply List.Sublist.append
    · have h1 : l.take b1 = (l.take a2).take b1 := by
        rw [List.take_take, min_eq_left hb]
      rw [h1]
      exact (List.drop_sublist _ _).trans (List.take_sublist _ _)
    · rw [List.drop_take]
      exact List.take_sublist _ _
  rw [List.take_append_drop] at hsub
  exact List.Pairwise.sublist hsub hs

theorem pageClamp_ge_one (page : ℤ) : 1 ≤ pageClamp page := by
  unfold pageClamp
  by_cases h : page < 1
  · rw [if_pos h]
  · rw [if_neg h]
    omega

theorem pageClamp_of_ge (page : ℤ) (h : 1 ≤ page) : pageClamp page = page := by
  unfold pageClamp
  rw [if_neg (not_lt.mpr h)]

theorem wrap64_eq_self (x : ℤ) (h : inInt64 x) : wrap64 x = x := by
  obtain ⟨h1, h2⟩ := h
  unfold wrap64
  omega

theorem wrap64_inInt64 (x : ℤ) : inInt64 (wrap64 x) := by
  unfold wrap64 inInt64
  constructor <;> omega

theorem wrap64_eq_of_modEq (x y : ℤ) (h : Int.ModEq (2 ^ 64) x y) :
    wrap64 x = wrap64 y := by
  unfold Int.ModEq at h
  unfold wrap64
  omega

theorem wrap64_modEq (x : ℤ) : Int.ModEq (2 ^ 64) (wrap64 x) x := by
  unfold Int.ModEq wrap64
  omega

/-- No Go int overflow happens anywhere in the page arithmetic of a
GetPaginatedTransactions call on this history: page-1, its product with
pageSize and the two slice bounds all stay in the int64 range.  (The
validation layer caps pageSize at 100 but leaves page unbounded, so a
huge page value really does wrap in the source.) -/
def pageArithFits (l : List TransactionRecord) (ost : Option ℤ)
    (page ps : ℤ) : Prop :=
  inInt64 (pageClamp page - 1) ∧
  inInt64 ((pageClamp page - 1) * ps) ∧
  inInt64 ((lowIdx l ost : ℤ) + (pageClamp page - 1) * ps) ∧
  inInt64 ((lowIdx l ost : ℤ) + (pageClamp page - 1) * ps + ps)

instance (l : List TransactionRecord) (ost : Option ℤ) (page ps : ℤ) :
    Decidable (pageArithFits l ost page ps) :=
  inferInstanceAs (Decidable (_ ∧ _ ∧ _ ∧ _))

/-- No Go int overflow in the page arithmetic of a
GetPaginatedTransactionsV2 call. -/
def pageArithFitsV2 (page ps : ℤ) : Prop :=
  inInt64 (pageClamp page - 1) ∧
  inInt64 ((pageClamp page - 1) * ps) ∧
  inInt64 ((pageClamp page - 1) * ps + ps)

instance (page ps : ℤ) : Decidable (pageArithFitsV2 page ps) :=
  inferInstanceAs (Decidable (_ ∧ _ ∧ _))

theorem pageStartIdx_of_fits (l : List TransactionRecord) (ost : Option ℤ)
    (page ps : ℤ) (hf : pageArithFits l ost page ps) :
    pageStartIdx l ost page ps =
      (lowIdx l ost : ℤ) + (pageClamp page - 1) * ps := by
  unfold pageStartIdx
  rw [wrap64_eq_self _ hf.1, wrap64_eq_self _ hf.2.1, wrap64_eq_self _ hf.2.2.1]

theorem pageStartIdx_nonneg (l : List TransactionRecord) (ost : Option ℤ)
    (page ps : ℤ) (hf : pageArithFits l ost page ps) (hps : 0 ≤ ps) :
    0 ≤ pageStartIdx l ost page ps := by
  rw [pageStartIdx_of_fits l ost page ps hf]
  have h1 := pageClamp_ge_one page
  have h2 : 0 ≤ (pageClamp page - 1) * ps :=
    mul_nonneg (by omega) hps
  have h3 : (0:ℤ) ≤ (lowIdx l ost : ℤ) := Int.ofNat_nonneg _
  omega

theorem pageStartIdx_ge_lowIdx (l : List TransactionRecord) (ost : Option ℤ)
    (page ps : ℤ) (hf : pageArithFits l ost page ps) (hps : 0 ≤ ps) :
    (lowIdx l ost : ℤ) ≤ pageStartIdx l ost page ps := by
  rw [pageStartIdx_of_fits l ost page ps hf]
  have h1 := pageClamp_ge_one page
  have h2 : 0 ≤ (pageClamp page - 1) * ps :=
    mul_nonneg (by omega) hps
  omega

theorem pageEndIdx_eq_min (l : List TransactionRecord) (ost oet : Option ℤ)
    (page ps : ℤ) (hf : pageArithFits l ost page ps) :
    pageEndIdx l ost oet page ps =
      min (pageStartIdx l ost page ps + ps) (highIdx l oet : ℤ) := by
  unfold pageEndIdx
  have hw : wrap64 (pageStartIdx l ost page ps + ps) =
      pageStartIdx l ost page ps + ps := by
    rw [pageStartIdx_of_fits l ost page ps hf]
    exact wrap64_eq_self _ hf.2.2.2
  rw [hw]
  by_cases h : pageStartIdx l ost page ps + ps > (highIdx l oet : ℤ)
  · rw [if_pos h, min_eq_right (le_of_lt h)]
  · rw [if_neg h, min_eq_left (not_lt.mp h)]

theorem pageStartIdx_inInt64 (l : List TransactionRecord) (ost : Option ℤ)
    (page ps : ℤ) : inInt64 (pageStartIdx l ost page ps) := by
  unfold pageStartIdx
  exact wrap64_inInt64 _

/-- Modulo 2^64 the wrapped page start agrees with the ideal arithmetic. -/
theorem pageStartIdx_modEq (l : List TransactionRecord) (ost : Option ℤ)
    (page ps : ℤ) :
    Int.ModEq (2 ^ 64) (pageStartIdx l ost page ps)
      ((lowIdx l ost : ℤ) + (pageClamp page - 1) * ps) := by
  unfold pageStartIdx
  exact (wrap64_modEq _).trans
    (Int.ModEq.add_left _ ((wrap64_modEq _).trans
      (Int.ModEq.mul_right ps (wrap64_modEq _))))

/-- Even with wrapping, the start of page+1 is the wrapped sum of the
start of page and pageSize: the two computations agree modulo 2^64. -/
theorem pageStartIdx_succ (l : List TransactionRecord) (ost : Option ℤ)
    (page ps : ℤ) (hpage : 1 ≤ page) :
    pageStartIdx l ost (page + 1) ps =
      wrap64 (pageStartIdx l ost page ps + ps) := by
  have h1 := pageStartIdx_modEq l ost (page + 1) ps
  have h2 := Int.ModEq.add_right ps (pageStartIdx_modEq l ost page ps)
  rw [pageClamp_of_ge (page + 1) (by omega)] at h1
  rw [pageClamp_of_ge page hpage] at h2
  have hring : (lowIdx l ost : ℤ) + (page + 1 - 1) * ps =
      (lowIdx l ost : ℤ) + (page - 1) * ps + ps := by ring
  rw [hring] at h1
  have h3 : Int.ModEq (2 ^ 64) (pageStartIdx l ost (page + 1) ps)
      (pageStartIdx l ost page ps + ps) := h1.trans h2.symm
  have h4 := wrap64_eq_of_modEq _ _ h3
  rw [wrap64_eq_self (pageStartIdx l ost (page + 1) ps)
    (pageStartIdx_inInt64 l ost (page + 1) ps)] at h4
  exact h4

/-- Whatever the page arithmetic did (wrapped or not), a some result of
pageCore is either the empty page or the in-bounds slice
[pageStartIdx, pageEndIdx) with the start strictly below highIdx. -/
theorem pageCore_shape (l : List TransactionRecord) (ost oet : Option ℤ)
    (page ps : ℤ) (r : PaginatedTransactions)
    (hr : pageCore l ost oet page ps = some r) :
    r.Transactions = [] ∨
      (pageStartIdx l ost page ps < (highIdx l oet : ℤ) ∧
       0 ≤ pageStartIdx l ost page ps ∧
       pageStartIdx l ost page ps ≤ pageEndIdx l ost oet page ps ∧
       pageEndIdx l ost oet page ps ≤ (l.length : ℤ) ∧
       r.Transactions = (l.take (pageEndIdx l ost oet page ps).toNat).drop
         (pageStartIdx l ost page ps).toNat) := by
  unfold pageCore at hr
  by_cases hearly : pageStartIdx l ost page ps ≥ (highIdx l oet : ℤ)
  · rw [if_pos hearly] at hr
    have := (Option.some.inj hr).symm
    subst this
    exact Or.inl rfl
  · rw [if_neg hearly] at hr
    unfold goSlice at hr
    by_cases hb : 0 ≤ pageStartIdx l ost page ps ∧
        pageStartIdx l ost page ps ≤ pageEndIdx l ost oet page ps ∧
        pageEndIdx l ost oet page ps ≤ (l.length : ℤ)
    · rw [if_pos hb] at hr
      have := (Option.some.inj hr).symm
      subst this
      exact Or.inr ⟨lt_of_not_ge hearly, hb.1, hb.2.1, hb.2.2, rfl⟩
    · rw [if_neg hb] at hr
      simp at hr

/-- With a nonnegative pageSize and no int overflow in the page
arithmetic, pageCore returns the slice [pageStartIdx, pageEndIdx) of the
history together with the filtered count; past-the-end pages come out as
the empty slice, not an error. -/
theorem pageCore_eq (l : List TransactionRecord) (ost oet : Option ℤ)
    (page ps : ℤ) (hf : pageArithFits l ost page ps) (hps : 0 ≤ ps) :
    pageCore l ost oet page ps =
      some ⟨(l.take (pageEndIdx l ost oet page ps).toNat).drop
          (pageStartIdx l ost page ps).toNat,
        filteredCount l ost oet⟩ := by
  unfold pageCore
  by_cases hearly : pageStartIdx l ost page ps ≥ (highIdx l oet : ℤ)
  · rw [if_pos hearly]
    have hnil : (l.take (pageEndIdx l ost oet page ps).toNat).drop
        (pageStartIdx l ost page ps).toNat = [] := by
      apply List.drop_eq_nil_of_le
      rw [List.length_take]
      have hpe : pageEndIdx l ost oet page ps ≤ pageStartIdx l ost page ps := by
        rw [pageEndIdx_eq_min l ost oet page ps hf]
        omega
      omega
    rw [hnil]
  · rw [if_neg hearly]
    push_neg at hearly
    have h0 : 0 ≤ pageStartIdx l ost page ps :=
      pageStartIdx_nonneg l ost page ps hf hps
    have hhl : (highIdx l oet : ℤ) ≤ (l.length : ℤ) := by
      exact_mod_cast highIdx_le_length l oet
    have hcond : 0 ≤ pageStartIdx l ost page ps ∧
        pageStartIdx l ost page ps ≤ pageEndIdx l ost oet page ps ∧
        pageEndIdx l ost oet page ps ≤ (l.length : ℤ) := by
      rw [pageEndIdx_eq_min l ost oet page ps hf]
      omega
    unfold goSlice
    rw [if_pos hcond]

/-- Without int overflow, a page of pageCore never exceeds pageSize
records. -/
theorem pageCore_length (l : List TransactionRecord) (ost oet : Option ℤ)
    (page ps : ℤ) (hf : pageArithFits l ost page ps) (hps : 0 ≤ ps)
    (r : PaginatedTransactions)
    (hr : pageCore l ost oet page ps = some r) :
    (r.Transactions.length : ℤ) ≤ ps := by
  rw [pageCore_eq l ost oet page ps hf hps] at hr
  have hr' : r = ⟨(l.take (pageEndIdx l ost oet page ps).toNat).drop
      (pageStartIdx l ost page ps).toNat, filteredCount l ost oet⟩ :=
    (Option.some.inj hr).symm
  subst hr'
  simp only [List.length_drop, List.length_take]
  have hpe : pageEndIdx l ost oet page ps ≤ pageStartIdx l ost page ps + ps := by
    rw [pageEndIdx_eq_min l ost oet page ps hf]
    omega
  have h0 : 0 ≤ pageStartIdx l ost page ps :=
    pageStartIdx_nonneg l ost page ps hf hps
  omega

/-- pageCore treats page < 1 as page = 1. -/
theorem pageCore_clamp (l : List TransactionRecord) (ost oet : Option ℤ)
    (ps page : ℤ) (hp : page < 1) :
    pageCore l ost oet page ps = pageCore l ost oet 1 ps := by
  have h : pageClamp page = pageClamp 1 := by
    unfold pageClamp
    rw [if_pos hp, if_neg (by omega : ¬(1:ℤ) < 1)]
  unfold pageCore pageEndIdx pageStartIdx
  rw [h]

/-- Without int overflow, on a negative pageSize the only successful
results carry an empty page (the slice paths panic). -/
theorem pageCore_neg_ps (l : List TransactionRecord) (ost oet : Option ℤ)
    (page ps : ℤ) (hf : pageArithFits l ost page ps) (hps : ps < 0)
    (r : PaginatedTransactions)
    (hr : pageCore l ost oet page ps = some r) : r.Transactions = [] := by
  unfold pageCore at hr
  by_cases hearly : pageStartIdx l ost page ps ≥ (highIdx l oet : ℤ)
  · rw [if_pos hearly] at hr
    have := (Option.some.inj hr).symm
    subst this
    rfl
  · rw [if_neg hearly] at hr
    push_neg at hearly
    have hgs : goSlice l (pageStartIdx l ost page ps)
        (pageEndIdx l ost oet page ps) = none := by
      unfold goSlice
      rw [if_neg]
      intro hcond
      have h2 := hcond.2.1
      rw [pageEndIdx_eq_min l ost oet page ps hf] at h2
      omega
    rw [hgs] at hr
    cases hr

/-- The TotalCount of every successful pageCore result is the filtered
count endIdx - startIdx. -/
theorem pageCore_totalCount (l : List TransactionRecord) (ost oet : Option ℤ)
    (page ps : ℤ) (r : PaginatedTransactions)
    (hr : pageCore l ost oet page ps = some r) :
    r.TotalCount = filteredCount l ost oet := by
  unfold pageCore at hr
  by_cases hearly : pageStartIdx l ost page ps ≥ (highIdx l oet : ℤ)
  · rw [if_pos hearly] at hr
    have := (Option.some.inj hr).symm
    subst this
    rfl
  · rw [if_neg hearly] at hr
    cases hgs : goSlice l (pageStartIdx l ost page ps)
        (pageEndIdx l ost oet page ps) with
    | none => rw [hgs] at hr; cases hr
    | some x =>
        rw [hgs] at hr
        have := (Option.some.inj hr).symm
        subst this
        rfl

theorem getPage_none (s : LedgerStore) (u : String) (ost oet : Option ℤ)
    (page ps : ℤ) (h : s.users u = none) :
    GetPaginatedTransactions s u ost oet page ps = some ⟨[], 0⟩ := by
  unfold GetPaginatedTransactions
  rw [h]

theorem getPage_some (s : LedgerStore) (u : String) (ost oet : Option ℤ)
    (page ps : ℤ) (ledger : userLedger) (h : s.users u = some ledger) :
    GetPaginatedTransactions s u ost oet page ps =
      pageCore ledger.transactions ost oet page ps := by
  unfold GetPaginatedTransactions
  rw [h]

/-- When the page arithmetic does not overflow, every record on a
successful page satisfies the range filter. -/
theorem pageCore_matches (l : List TransactionRecord) (ost oet : Option ℤ)
    (page ps : ℤ) (r : PaginatedTransactions) (hs : l.Sorted txLE)
    (hc : ∀ st ∈ ost, ∀ et ∈ oet, st ≤ et)
    (hf : pageArithFits l ost page ps)
    (hr : pageCore l ost oet page ps = some r) :
    ∀ tx ∈ r.Transactions, matchesFilter ost oet tx = true := by
  by_cases hps : 0 ≤ ps
  · rw [pageCore_eq l ost oet page ps hf hps] at hr
    have hr' := (Option.some.inj hr).symm
    subst hr'
    intro tx htx
    have hsub : ((l.take (pageEndIdx l ost oet page ps).toNat).drop
        (pageStartIdx l ost page ps).toNat).Sublist
        ((l.take (highIdx l oet)).drop (lowIdx l ost)) := by
      apply slice_sublist_slice
      · have := pageStartIdx_ge_lowIdx l ost page ps hf hps
        omega
      · have h1 : pageEndIdx l ost oet page ps ≤ (highIdx l oet : ℤ) := by
          rw [pageEndIdx_eq_min l ost oet page ps hf]
          omega
        omega
    have hmem : tx ∈ (l.take (highIdx l oet)).drop (lowIdx l ost) :=
      hsub.subset htx
    rw [← filter_matches_eq_slice l hs ost oet hc] at hmem
    exact (List.mem_filter.mp hmem).2
  · push_neg at hps
    rw [pageCore_neg_ps l ost oet page ps hf hps r hr]
    intro tx htx
    cases htx

/-- Claim C4, counterexample to the statement as written: on a one-record
history (timestamp 5), the inverted range startTime = 10, endTime = 1
makes the two binary searches cross (startIdx = 1, endIdx = 0), so
GetPaginatedTransactions reports TotalCount = -1 even though 0 records
satisfy the filter — TotalCount is not the count of matching records. -/
theorem C4_counterexample :
    (GetPaginatedTransactions (runOps [Op.addWithTime "acct"
        ⟨7, 5, TransactionType.deposit, 5, "d"⟩]) "acct"
      (some 10) (some 1) 1 10).map PaginatedTransactions.TotalCount ≠
    some (((txsOf (runOps [Op.addWithTime "acct"
        ⟨7, 5, TransactionType.deposit, 5, "d"⟩]) "acct").filter
        (matchesFilter (some 10) (some 1))).length : ℤ) := by
  decide

/-- Claim C4 (amended): provided the two bounds are compatible
(startTime ≤ endTime whenever both are present — the validation layer
rejects inverted ranges before the store runs), on a sorted account state
TotalCount is exactly the number of records satisfying the filter; and
provided additionally that the page arithmetic does not overflow the
64-bit int (with overflow the wrapped slice bounds can reach below the
filtered range), every record on the returned page satisfies the
filter. -/
theorem C4_range_filter (s : LedgerStore) (u : String) (ost oet : Option ℤ)
    (page ps : ℤ) (r : PaginatedTransactions)
    (hsorted : (txsOf s u).Sorted txLE)
    (hc : ∀ st ∈ ost, ∀ et ∈ oet, st ≤ et)
    (hr : GetPaginatedTransactions s u ost oet page ps = some r) :
    r.TotalCount = (((txsOf s u).filter (matchesFilter ost oet)).length : ℤ) ∧
    (pageArithFits (txsOf s u) ost page ps →
      ∀ tx ∈ r.Transactions, matchesFilter ost oet tx = true) := by
  cases hu : s.users u with
  | none =>
      rw [getPage_none s u ost oet page ps hu] at hr
      have hr' := (Option.some.inj hr).symm
      subst hr'
      have htx : txsOf s u = [] := by
        simp [txsOf, hu, emptyLedger]
      rw [htx]
      exact ⟨rfl, fun _ tx htx' => absurd htx' (List.not_mem_nil tx)⟩
  | some ledger =>
      rw [getPage_some s u ost oet page ps ledger hu] at hr
      have hl : txsOf s u = ledger.transactions := by
        simp [txsOf, hu]
      rw [hl] at hsorted ⊢
      constructor
      · have hcount := pageCore_totalCount ledger.transactions ost oet page ps r hr
        have hlen := length_filter_matches ledger.transactions hsorted ost oet hc
        have hlh := lowIdx_le_highIdx_compat ledger.transactions ost oet hc
        rw [hcount]
        unfold filteredCount
        omega
      · exact fun hf =>
          pageCore_matches ledger.transactions ost oet page ps r hsorted hc hf hr

theorem C4_range_filter_witness :
    (txsOf (runOps [Op.addWithTime "acct"
        ⟨7, 5, TransactionType.deposit, 5, "d"⟩]) "acct").Sorted txLE ∧
    (∀ st ∈ some (3:ℤ), ∀ et ∈ some (9:ℤ), st ≤ et) ∧
    GetPaginatedTransactions (runOps [Op.addWithTime "acct"
        ⟨7, 5, TransactionType.deposit, 5, "d"⟩]) "acct"
      (some 3) (some 9) 1 10 = some ⟨[⟨7, 5, TransactionType.deposit, 5, "d"⟩], 1⟩ ∧
    ((⟨[⟨7, 5, TransactionType.deposit, 5, "d"⟩], 1⟩ :
        PaginatedTransactions).TotalCount =
      (((txsOf (runOps [Op.addWithTime "acct"
          ⟨7, 5, TransactionType.deposit, 5, "d"⟩]) "acct").filter
          (matchesFilter (some 3) (some 9))).length : ℤ)) ∧
    (∀ tx ∈ (⟨[⟨7, 5, TransactionType.deposit, 5, "d"⟩], 1⟩ :
        PaginatedTransactions).Transactions,
      matchesFilter (some 3) (some 9) tx = true) :=
  ⟨runOps_sorted _ "acct", by decide, by decide,
    (C4_range_filter _ "acct" (some 3) (some 9) 1 10 _
      (runOps_sorted _ "acct") (by decide) (by decide)).1,
    (C4_range_filter (runOps [Op.addWithTime "acct"
        ⟨7, 5, TransactionType.deposit, 5, "d"⟩]) "acct" (some 3) (some 9) 1 10
      ⟨[⟨7, 5, TransactionType.deposit, 5, "d"⟩], 1⟩
      (runOps_sorted _ "acct") (by decide) (by decide)).2 (by decide)⟩

/-- Claim C5 counterexample: the index formula of the claim is computed in
Go int arithmetic, which wraps.  With two records at timestamps 1 and 2,
startTime = 2 (so lowIdx = 1, highIdx = 2), page = 6148914691236517206 and
pageSize = 3, (page-1)*pageSize wraps to -1, the start index becomes
lowIdx - 1 = 0 and the call returns BOTH records — while the claim's exact
formula puts the page start at lowIdx + (page-1)*pageSize, far beyond
highIdx (second conjunct), so the claim demands an empty page. -/
theorem C5_counterexample :
    GetPaginatedTransactions (runOps [Op.addWithTime "acct"
        ⟨1, 10, TransactionType.deposit, 1, "a"⟩,
      Op.addWithTime "acct" ⟨2, 20, TransactionType.deposit, 2, "b"⟩])
      "acct" (some 2) none 6148914691236517206 3 =
      some ⟨[⟨1, 10, TransactionType.deposit, 1, "a"⟩,
        ⟨2, 20, TransactionType.deposit, 2, "b"⟩], 1⟩ ∧
    (highIdx [⟨1, 10, TransactionType.deposit, 1, "a"⟩,
        ⟨2, 20, TransactionType.deposit, 2, "b"⟩] none : ℤ) ≤
      (lowIdx [⟨1, 10, TransactionType.deposit, 1, "a"⟩,
        ⟨2, 20, TransactionType.deposit, 2, "b"⟩] (some 2) : ℤ) +
        (6148914691236517206 - 1) * 3 := by
  constructor
  · decide
  · decide

/-- Claim C5 (amended): provided the page arithmetic stays inside int64
(page-1, (page-1)*pageSize and both slice bounds — with a wrapping page
value the start index is computed modulo 2^64 and the formula below is
wrong), with page ≥ 1 and pageSize ≥ 1 GetPaginatedTransactions returns
exactly the records at indices
[lowIdx + (page-1)*pageSize, min (lowIdx + (page-1)*pageSize + pageSize) highIdx)
of the sorted history with totalCount = highIdx - lowIdx (an empty page,
not an error, past the end), and an account with no ledger yields an
empty sequence with totalCount 0. -/
theorem C5_pagination_arith (s : LedgerStore) (u : String) (ost oet : Option ℤ)
    (page ps : ℤ) (hpage : 1 ≤ page) (hps : 1 ≤ ps)
    (hf : pageArithFits (txsOf s u) ost page ps) :
    (s.users u = none →
      GetPaginatedTransactions s u ost oet page ps = some ⟨[], 0⟩) ∧
    (∀ ledger, s.users u = some ledger →
      GetPaginatedTransactions s u ost oet page ps =
        some ⟨(ledger.transactions.take
            (min ((lowIdx ledger.transactions ost : ℤ) + (page - 1) * ps + ps)
              (highIdx ledger.transactions oet : ℤ)).toNat).drop
            (((lowIdx ledger.transactions ost : ℤ) + (page - 1) * ps).toNat),
          (highIdx ledger.transactions oet : ℤ) -
            (lowIdx ledger.transactions ost : ℤ)⟩) := by
  constructor
  · intro hu
    exact getPage_none s u ost oet page ps hu
  · intro ledger hu
    have hl : txsOf s u = ledger.transactions := by
      simp [txsOf, hu]
    rw [hl] at hf
    rw [getPage_some s u ost oet page ps ledger hu,
      pageCore_eq _ _ _ _ _ hf (by omega : (0:ℤ) ≤ ps)]
    have h1 : pageStartIdx ledger.transactions ost page ps =
        (lowIdx ledger.transactions ost : ℤ) + (page - 1) * ps := by
      rw [pageStartIdx_of_fits _ _ _ _ hf, pageClamp_of_ge page hpage]
    have h2 : pageEndIdx ledger.transactions ost oet page ps =
        min ((lowIdx ledger.transactions ost : ℤ) + (page - 1) * ps + ps)
          (highIdx ledger.transactions oet : ℤ) := by
      rw [pageEndIdx_eq_min _ _ _ _ _ hf, h1]
    rw [h1, h2]
    rfl

theorem C5_pagination_arith_witness :
    (GetPaginatedTransactions (runOps [Op.addWithTime "acct"
        ⟨1, 2, TransactionType.deposit, 10, "a"⟩,
      Op.addWithTime "acct" ⟨2, 3, TransactionType.deposit, 20, "b"⟩])
      "ghost" none none 2 1 = some ⟨[], 0⟩) ∧
    GetPaginatedTransactions (runOps [Op.addWithTime "acct"
        ⟨1, 2, TransactionType.deposit, 10, "a"⟩,
      Op.addWithTime "acct" ⟨2, 3, TransactionType.deposit, 20, "b"⟩])
      "acct" none none 2 1 =
      some ⟨(([⟨1, 2, TransactionType.deposit, 10, "a"⟩,
          ⟨2, 3, TransactionType.deposit, 20, "b"⟩] :
            List TransactionRecord).take
          (min ((lowIdx [⟨1, 2, TransactionType.deposit, 10, "a"⟩,
              ⟨2, 3, TransactionType.deposit, 20, "b"⟩] none : ℤ) + (2 - 1) * 1 + 1)
            (highIdx [⟨1, 2, TransactionType.deposit, 10, "a"⟩,
              ⟨2, 3, TransactionType.deposit, 20, "b"⟩] none : ℤ)).toNat).drop
          (((lowIdx [⟨1, 2, TransactionType.deposit, 10, "a"⟩,
              ⟨2, 3, TransactionType.deposit, 20, "b"⟩] none : ℤ) + (2 - 1) * 1).toNat),
        (highIdx [⟨1, 2, TransactionType.deposit, 10, "a"⟩,
            ⟨2, 3, TransactionType.deposit, 20, "b"⟩] none : ℤ) -
          (lowIdx [⟨1, 2, TransactionType.deposit, 10, "a"⟩,
            ⟨2, 3, TransactionType.deposit, 20, "b"⟩] none : ℤ)⟩ :=
  ⟨(C5_pagination_arith _ "ghost" none none 2 1 (by norm_num) (by norm_num)
      (by decide)).1 (by decide),
   (C5_pagination_arith _ "acct" none none 2 1 (by norm_num) (by norm_num)
      (by decide)).2
     ⟨[⟨1, 2, TransactionType.deposit, 10, "a"⟩,
       ⟨2, 3, TransactionType.deposit, 20, "b"⟩], 0 + 2 + 3⟩ rfl⟩

/-- Claim C10 counterexample: GetPaginatedTransactions is NOT total.  On a
one-record history, page = 6148914691236517206 and pageSize = 3 make
(page-1)*pageSize wrap to -1 in int64 arithmetic; the source then slices
transactions[-1:1], which panics in Go — modeled here as none. -/
theorem C10_counterexample :
    GetPaginatedTransactions (runOps [Op.addWithTime "acct"
        ⟨7, 5, TransactionType.deposit, 5, "d"⟩]) "acct" none none
      6148914691236517206 3 = none := by
  decide

/-- Claim C10 (amended): with any page (page < 1 is treated as page = 1)
and any pageSize ≥ 0, PROVIDED the page arithmetic stays inside int64
(with a page value near 2^63/pageSize the start index wraps negative and
the slice expression panics), GetPaginatedTransactions returns some
result whose page holds at most pageSize records; and the page < 1 clamp
to page 1 holds unconditionally. -/
theorem C10_pagination_total (s : LedgerStore) (u : String) (ost oet : Option ℤ)
    (page ps : ℤ) (hps : 0 ≤ ps) :
    (pageArithFits (txsOf s u) ost page ps →
      ∃ r, GetPaginatedTransactions s u ost oet page ps = some r ∧
        (r.Transactions.length : ℤ) ≤ ps) ∧
    (page < 1 → GetPaginatedTransactions s u ost oet page ps =
      GetPaginatedTransactions s u ost oet 1 ps) := by
  constructor
  · intro hf
    cases hu : s.users u with
    | none =>
        refine ⟨⟨[], 0⟩, getPage_none s u ost oet page ps hu, ?_⟩
        simpa using hps
    | some ledger =>
        have hl : txsOf s u = ledger.transactions := by
          simp [txsOf, hu]
        rw [hl] at hf
        rw [getPage_some s u ost oet page ps ledger hu]
        exact ⟨_, pageCore_eq _ _ _ _ _ hf hps,
          pageCore_length _ _ _ _ _ hf hps _ (pageCore_eq _ _ _ _ _ hf hps)⟩
  · intro hp
    cases hu : s.users u with
    | none =>
        rw [getPage_none s u ost oet page ps hu,
          getPage_none s u ost oet 1 ps hu]
    | some ledger =>
        rw [getPage_some s u ost oet page ps ledger hu,
          getPage_some s u ost oet 1 ps ledger hu,
          pageCore_clamp _ _ _ _ _ hp]

theorem C10_pagination_total_witness :
    (∃ r, GetPaginatedTransactions (runOps [Op.addWithTime "acct"
        ⟨7, 5, TransactionType.deposit, 5, "d"⟩]) "acct" none none 0 3 = some r ∧
      (r.Transactions.length : ℤ) ≤ 3) ∧
    GetPaginatedTransactions (runOps [Op.addWithTime "acct"
        ⟨7, 5, TransactionType.deposit, 5, "d"⟩]) "acct" none none 0 3 =
      GetPaginatedTransactions (runOps [Op.addWithTime "acct"
        ⟨7, 5, TransactionType.deposit, 5, "d"⟩]) "acct" none none 1 3 :=
  ⟨(C10_pagination_total _ "acct" none none 0 3 (by norm_num)).1 (by decide),
   (C10_pagination_total _ "acct" none none 0 3 (by norm_num)).2 (by norm_num)⟩

/-- Claim C8: every account history in every reachable store state is
sorted non-decreasingly by timestamp, and for a fixed filter and pageSize
the records of two consecutive pages concatenate to a non-decreasing
sequence (so pages are sorted within and across boundaries). -/
theorem C8_sort_invariant (ops : List Op) (u : String) :
    (txsOf (runOps ops) u).Sorted txLE ∧
    (∀ (ost oet : Option ℤ) (page ps : ℤ) (r1 r2 : PaginatedTransactions),
      1 ≤ page →
      GetPaginatedTransactions (runOps ops) u ost oet page ps = some r1 →
      GetPaginatedTransactions (runOps ops) u ost oet (page + 1) ps = some r2 →
      (r1.Transactions ++ r2.Transactions).Sorted txLE) := by
  refine ⟨runOps_sorted ops u, fun ost oet page ps r1 r2 hpage hr1 hr2 => ?_⟩
  cases hu : (runOps ops).users u with
  | none =>
      rw [getPage_none _ _ _ _ _ _ hu] at hr1 hr2
      have e1 := (Option.some.inj hr1).symm
      have e2 := (Option.some.inj hr2).symm
      subst e1
      subst e2
      exact List.sorted_nil
  | some ledger =>
      rw [getPage_some _ _ _ _ _ _ ledger hu] at hr1 hr2
      have hsor : ledger.transactions.Sorted txLE := by
        have h := runOps_sorted ops u
        simpa [txsOf, hu] using h
      have hs1 := pageCore_shape ledger.transactions ost oet page ps r1 hr1
      have hs2 := pageCore_shape ledger.transactions ost oet (page + 1) ps r2 hr2
      have sorted1 : r1.Transactions.Sorted txLE := by
        rcases hs1 with h | ⟨_, _, _, _, he⟩
        · rw [h]
          exact List.sorted_nil
        · rw [he]
          exact List.Pairwise.sublist
            ((List.drop_sublist _ _).trans (List.take_sublist _ _)) hsor
      have sorted2 : r2.Transactions.Sorted txLE := by
        rcases hs2 with h | ⟨_, _, _, _, he⟩
        · rw [h]
          exact List.sorted_nil
        · rw [he]
          exact List.Pairwise.sublist
            ((List.drop_sublist _ _).trans (List.take_sublist _ _)) hsor
      rcases hs1 with h1 | ⟨_, _, _, _, he1⟩
      · rw [h1]
        simpa using sorted2
      · rcases hs2 with h2 | ⟨hlt2, _, _, _, he2⟩
        · rw [h2]
          simpa using sorted1
        · have hee : pageEndIdx ledger.transactions ost oet page ps =
              pageStartIdx ledger.transactions ost (page + 1) ps := by
            unfold pageEndIdx
            rw [← pageStartIdx_succ ledger.transactions ost page ps hpage,
              if_neg (not_lt.mpr (le_of_lt hlt2))]
          rw [he1, he2]
          apply sorted_slice_append ledger.transactions hsor
          rw [hee]

theorem C8_sort_invariant_witness :
    (txsOf (runOps [Op.addWithTime "acct"
        ⟨1, 2, TransactionType.deposit, 10, "a"⟩,
      Op.addWithTime "acct" ⟨2, 3, TransactionType.deposit, 20, "b"⟩])
      "acct").Sorted txLE ∧
    (((⟨[⟨1, 2, TransactionType.deposit, 10, "a"⟩], 2⟩ :
        PaginatedTransactions).Transactions ++
      (⟨[⟨2, 3, TransactionType.deposit, 20, "b"⟩], 2⟩ :
        PaginatedTransactions).Transactions).Sorted txLE) :=
  ⟨(C8_sort_invariant [Op.addWithTime "acct"
        ⟨1, 2, TransactionType.deposit, 10, "a"⟩,
      Op.addWithTime "acct" ⟨2, 3, TransactionType.deposit, 20, "b"⟩] "acct").1,
   (C8_sort_invariant [Op.addWithTime "acct"
        ⟨1, 2, TransactionType.deposit, 10, "a"⟩,
      Op.addWithTime "acct" ⟨2, 3, TransactionType.deposit, 20, "b"⟩] "acct").2
     none none 1 1
     ⟨[⟨1, 2, TransactionType.deposit, 10, "a"⟩], 2⟩
     ⟨[⟨2, 3, TransactionType.deposit, 20, "b"⟩], 2⟩
     (by norm_num) (by decide) (by decide)⟩

/-! Red-black-tree Put observed through the in-order entry sequence. -/

theorem treePut_mem (k : ℤ) (v : TransactionRecord) :
    ∀ t : List (ℤ × TransactionRecord), ∀ e ∈ treePut k v t, e = (k, v) ∨ e ∈ t := by
  intro t
  induction t with
  | nil =>
      intro e he
      simp only [treePut] at he
      simp at he
      exact Or.inl he
  | cons x rest ih =>
      intro e he
      unfold treePut at he
      by_cases h1 : k < x.1
      · rw [if_pos h1] at he
        rcases List.mem_cons.mp he with he | he
        · exact Or.inl he
        · exact Or.inr he
      · rw [if_neg h1] at he
        by_cases h2 : k = x.1
        · rw [if_pos h2] at he
          rcases List.mem_cons.mp he with he | he
          · exact Or.inl he
          · exact Or.inr (List.mem_cons_of_mem x he)
        · rw [if_neg h2] at he
          rcases List.mem_cons.mp he with he | he
          · exact Or.inr (he ▸ List.mem_cons_self x rest)
          · rcases ih e he with h | h
            · exact Or.inl h
            · exact Or.inr (List.mem_cons_of_mem x h)

theorem treePut_kv (k : ℤ) (v : TransactionRecord) (hv : v.timestamp = k)
    (t : List (ℤ × TransactionRecord)) (hkv : ∀ e ∈ t, e.1 = e.2.timestamp) :
    ∀ e ∈ treePut k v t, e.1 = e.2.timestamp := by
  intro e he
  rcases treePut_mem k v t e he with h | h
  · rw [h, hv]
  · exact hkv e h

theorem treePut_keys_sorted (k : ℤ) (v : TransactionRecord) :
    ∀ t : List (ℤ × TransactionRecord),
      ((t.map Prod.fst).Sorted (· < ·)) →
      (((treePut k v t).map Prod.fst).Sorted (· < ·)) := by
  intro t
  induction t with
  | nil =>
      intro _
      simp [treePut]
  | cons x rest ih =>
      intro hs
      rw [List.map_cons, List.sorted_cons] at hs
      unfold treePut
      by_cases h1 : k < x.1
      · rw [if_pos h1]
        simp only [List.map_cons]
        rw [List.sorted_cons]
        refine ⟨?_, ?_⟩
        · intro b hb
          rcases List.mem_cons.mp hb with hb | hb
          · rw [hb]; exact h1
          · exact lt_trans h1 (hs.1 b hb)
        · rw [List.sorted_cons]
          exact hs
      · rw [if_neg h1]
        by_cases h2 : k = x.1
        · rw [if_pos h2]
          simp only [List.map_cons]
          rw [List.sorted_cons]
          refine ⟨?_, hs.2⟩
          intro b hb
          rw [h2]
          exact hs.1 b hb
        · rw [if_neg h2]
          simp only [List.map_cons]
          rw [List.sorted_cons]
          refine ⟨?_, ih hs.2⟩
          intro b hb
          rcases List.mem_map.mp hb with ⟨e, he, hbe⟩
          rcases treePut_mem k v rest e he with h | h
          · rw [← hbe, h]
            omega
          · exact hs.1 b (hbe ▸ List.mem_map_of_mem Prod.fst h)

theorem treePut_values_perm (k : ℤ) (v : TransactionRecord) :
    ∀ t : List (ℤ × TransactionRecord), k ∉ t.map Prod.fst →
      ((treePut k v t).map Prod.snd).Perm (v :: t.map Prod.snd) := by
  intro t
  induction t with
  | nil =>
      intro _
      simp [treePut]
  | cons x rest ih =>
      intro hk
      rw [List.map_cons, List.mem_cons] at hk
      push_neg at hk
      unfold treePut
      by_cases h1 : k < x.1
      · rw [if_pos h1]
        simp
      · rw [if_neg h1, if_neg hk.1]
        simp only [List.map_cons]
        exact (List.Perm.cons x.2 (ih hk.2)).trans (List.Perm.swap v x.2 _)

/-- Strict timestamp order: antisymmetric, so a sorted permutation of
records with pairwise distinct timestamps is unique. -/
def txLT (a b : TransactionRecord) : Prop := a.timestamp < b.timestamp

instance : DecidableRel txLT := fun a b => Int.decLt a.timestamp b.timestamp

instance : IsTrans TransactionRecord txLT := ⟨fun _ _ _ h1 h2 => lt_trans h1 h2⟩

instance : IsAntisymm TransactionRecord txLT :=
  ⟨fun _ _ h1 h2 => absurd (lt_trans h1 h2) (lt_irrefl _)⟩

theorem values_sorted_lt (t : List (ℤ × TransactionRecord))
    (hk : (t.map Prod.fst).Sorted (· < ·))
    (hkv : ∀ e ∈ t, e.1 = e.2.timestamp) :
    (t.map Prod.snd).Sorted txLT := by
  have h1 : t.map Prod.fst =
      (t.map Prod.snd).map TransactionRecord.timestamp := by
    rw [List.map_map]
    exact List.map_congr_left fun e he => hkv e he
  rw [h1] at hk
  exact (@List.pairwise_map _ _ TransactionRecord.timestamp (· < ·)
    (t.map Prod.snd)).mp hk

theorem sorted_lt_of_le_nodup (l : List TransactionRecord)
    (h1 : l.Sorted txLE)
    (h2 : (l.map TransactionRecord.timestamp).Nodup) : l.Sorted txLT := by
  have h3 : l.Pairwise fun a b => a.timestamp ≠ b.timestamp :=
    (@List.pairwise_map _ _ TransactionRecord.timestamp (· ≠ ·) l).mp h2
  exact (h1.and h3).imp fun h => lt_of_le_of_ne h.1 h.2

/-- Putting a fresh key into a tree whose in-order values are some list
produces exactly the stable-sorted extension of those values: the single
point where the two stores' per-account histories are tied together. -/
theorem treePut_snd_eq (k : ℤ) (v : TransactionRecord) (hv : v.timestamp = k)
    (t : List (ℤ × TransactionRecord))
    (hk : (t.map Prod.fst).Sorted (· < ·))
    (hkv : ∀ e ∈ t, e.1 = e.2.timestamp)
    (hfresh : k ∉ t.map Prod.fst) :
    (treePut k v t).map Prod.snd = sortStable (t.map Prod.snd ++ [v]) := by
  have hperm1 : ((treePut k v t).map Prod.snd).Perm (v :: t.map Prod.snd) :=
    treePut_values_perm k v t hfresh
  have hperm2 : (sortStable (t.map Prod.snd ++ [v])).Perm (v :: t.map Prod.snd) :=
    (List.perm_insertionSort txLE _).trans (List.perm_append_singleton _ _)
  have hlt1 : ((treePut k v t).map Prod.snd).Sorted txLT :=
    values_sorted_lt _ (treePut_keys_sorted k v t hk) (treePut_kv k v hv t hkv)
  have hle2 : (sortStable (t.map Prod.snd ++ [v])).Sorted txLE :=
    List.sorted_insertionSort txLE _
  have hkeq : ((treePut k v t).map Prod.snd).map TransactionRecord.timestamp =
      (treePut k v t).map Prod.fst := by
    rw [List.map_map]
    exact List.map_congr_left fun e he => (treePut_kv k v hv t hkv e he).symm
  have hn1 : (((treePut k v t).map Prod.snd).map
      TransactionRecord.timestamp).Nodup := by
    rw [hkeq]
    exact (treePut_keys_sorted k v t hk).nodup
  have hp : ((sortStable (t.map Prod.snd ++ [v])).map
      TransactionRecord.timestamp).Perm
      (((treePut k v t).map Prod.snd).map TransactionRecord.timestamp) :=
    (hperm2.trans hperm1.symm).map _
  have hlt2 : (sortStable (t.map Prod.snd ++ [v])).Sorted txLT :=
    sorted_lt_of_le_nodup _ hle2 (hp.nodup_iff.mpr hn1)
  exact List.eq_of_perm_of_sorted (hperm1.trans hperm2.symm) hlt1 hlt2

/-! Branch characterizations of AddTransactionV2 and the simulation
relation between the two stores. -/

theorem addTxV2_error (s : LedgerStoreV2) (u : String) (ty : TransactionType)
    (amt : ℚ) (d : String) (i : Nat) (n : ℤ)
    (h : ty = TransactionType.withdrawal ∧ balanceOfV2 s u < amt) :
    AddTransactionV2 s u ty amt d i n =
      (⟨fun v => if v = u then some ((s.users u).getD ⟨[], 0⟩) else s.users v⟩,
        Except.error "insufficient funds") := by
  have h' : ty = TransactionType.withdrawal ∧
      ((s.users u).getD ⟨[], 0⟩).balance < amt := h
  simp only [AddTransactionV2]
  rw [if_pos h']

theorem addTxV2_ok (s : LedgerStoreV2) (u : String) (ty : TransactionType)
    (amt : ℚ) (d : String) (i : Nat) (n : ℤ)
    (h : ¬(ty = TransactionType.withdrawal ∧ balanceOfV2 s u < amt)) :
    AddTransactionV2 s u ty amt d i n =
      (⟨fun v => if v = u then
          some ⟨treePut n (NewTransactionRecord ty amt d i n) (treeOf s u),
            balanceOfV2 s u + signedAmount ty amt⟩
        else s.users v⟩,
        Except.ok (NewTransactionRecord ty amt d i n)) := by
  have h' : ¬(ty = TransactionType.withdrawal ∧
      ((s.users u).getD ⟨[], 0⟩).balance < amt) := h
  simp only [AddTransactionV2]
  rw [if_neg h']
  cases ty <;>
    simp [signedAmount, treeOf, balanceOfV2, emptyLedgerV2, sub_eq_add_neg,
      NewTransactionRecord]

def ledgerRel (l1 : userLedger) (l2 : userLedgerV2) : Prop :=
  l1.balance = l2.balance ∧
  l1.transactions = l2.tree.map Prod.snd ∧
  (∀ e ∈ l2.tree, e.1 = e.2.timestamp) ∧
  ((l2.tree.map Prod.fst).Sorted (· < ·))

def storeRel (s1 : LedgerStore) (s2 : LedgerStoreV2) : Prop :=
  ∀ u, (s1.users u = none ∧ s2.users u = none) ∨
    (∃ l1 l2, s1.users u = some l1 ∧ s2.users u = some l2 ∧ ledgerRel l1 l2)

theorem ledgerRel_empty : ledgerRel emptyLedger emptyLedgerV2 :=
  ⟨rfl, rfl, fun e he => absurd he (List.not_mem_nil e), List.sorted_nil⟩

theorem storeRel_getD (s1 : LedgerStore) (s2 : LedgerStoreV2)
    (h : storeRel s1 s2) (u : String) :
    ledgerRel ((s1.users u).getD emptyLedger) ((s2.users u).getD emptyLedgerV2) := by
  rcases h u with ⟨h1, h2⟩ | ⟨l1, l2, h1, h2, hrel⟩
  · rw [h1, h2]
    exact ledgerRel_empty
  · rw [h1, h2]
    exact hrel

def keysBound (s2 : LedgerStoreV2) (seen : List ℤ) : Prop :=
  ∀ u, ∀ e ∈ treeOf s2 u, e.1 ∈ seen

theorem keysBound_mono (s2 : LedgerStoreV2) (seen1 seen2 : List ℤ)
    (h : keysBound s2 seen1) (hsub : ∀ x ∈ seen1, x ∈ seen2) :
    keysBound s2 seen2 :=
  fun u e he => hsub _ (h u e he)

theorem storeRel_update (s1 : LedgerStore) (s2 : LedgerStoreV2)
    (h : storeRel s1 s2) (u0 : String)
    (l1 : userLedger) (l2 : userLedgerV2) (hrel : ledgerRel l1 l2) :
    storeRel ⟨fun v => if v = u0 then some l1 else s1.users v⟩
      ⟨fun v => if v = u0 then some l2 else s2.users v⟩ := by
  intro u
  by_cases hu : u = u0
  · subst hu
    right
    exact ⟨l1, l2, by simp, by simp, hrel⟩
  · rcases h u with ⟨h1, h2⟩ | ⟨m1, m2, h1, h2, hr⟩
    · left
      constructor <;> simp [hu, h1, h2]
    · right
      exact ⟨m1, m2, by simp [hu, h1], by simp [hu, h2], hr⟩

/-- One AddTransaction / AddTransactionV2 call on related stores with a
fresh timestamp: identical accept/reject result and related new stores. -/
theorem addCall_step (s1 : LedgerStore) (s2 : LedgerStoreV2)
    (h : storeRel s1 s2) (c : AddCall)
    (hfresh : c.now ∉ (treeOf s2 c.userId).map Prod.fst) :
    (AddTransaction s1 c.userId c.txType c.amount c.description c.id c.now).2 =
      (AddTransactionV2 s2 c.userId c.txType c.amount c.description c.id c.now).2 ∧
    storeRel (AddTransaction s1 c.userId c.txType c.amount c.description c.id c.now).1
      (AddTransactionV2 s2 c.userId c.txType c.amount c.description c.id c.now).1 := by
  have hrel := storeRel_getD s1 s2 h c.userId
  have hbal : balanceOf s1 c.userId = balanceOfV2 s2 c.userId := hrel.1
  by_cases hc : c.txType = TransactionType.withdrawal ∧
      balanceOf s1 c.userId < c.amount
  · have hc2 : c.txType = TransactionType.withdrawal ∧
        balanceOfV2 s2 c.userId < c.amount := by
      rw [← hbal]
      exact hc
    rw [addTx_error _ _ _ _ _ _ _ hc, addTxV2_error _ _ _ _ _ _ _ hc2]
    exact ⟨rfl, storeRel_update s1 s2 h c.userId _ _ hrel⟩
  · have hc2 : ¬(c.txType = TransactionType.withdrawal ∧
        balanceOfV2 s2 c.userId < c.amount) := by
      rw [← hbal]
      exact hc
    rw [addTx_ok _ _ _ _ _ _ _ hc, addTxV2_ok _ _ _ _ _ _ _ hc2]
    refine ⟨rfl, storeRel_update s1 s2 h c.userId _ _ ?_⟩
    have htx : txsOf s1 c.userId = (treeOf s2 c.userId).map Prod.snd := hrel.2.1
    refine ⟨by rw [hbal], ?_, ?_, ?_⟩
    · rw [treePut_snd_eq c.now
        (NewTransactionRecord c.txType c.amount c.description c.id c.now) rfl
        (treeOf s2 c.userId) hrel.2.2.2 hrel.2.2.1 hfresh, htx]
    · exact treePut_kv c.now _ rfl (treeOf s2 c.userId) hrel.2.2.1
    · exact treePut_keys_sorted c.now _ (treeOf s2 c.userId) hrel.2.2.2

theorem keysBound_step (s2 : LedgerStoreV2) (seen : List ℤ) (c : AddCall)
    (hkb : keysBound s2 seen) :
    keysBound (AddTransactionV2 s2 c.userId c.txType c.amount
      c.description c.id c.now).1 (c.now :: seen) := by
  by_cases hc : c.txType = TransactionType.withdrawal ∧
      balanceOfV2 s2 c.userId < c.amount
  · rw [addTxV2_error _ _ _ _ _ _ _ hc]
    intro u e he
    by_cases hu : u = c.userId
    · subst hu
      have he' : e ∈ treeOf s2 c.userId := by
        simpa [treeOf, emptyLedgerV2] using he
      exact List.mem_cons_of_mem _ (hkb _ e he')
    · have he' : e ∈ treeOf s2 u := by
        simpa [treeOf, hu] using he
      exact List.mem_cons_of_mem _ (hkb _ e he')
  · rw [addTxV2_ok _ _ _ _ _ _ _ hc]
    intro u e he
    by_cases hu : u = c.userId
    · subst hu
      have he' : e ∈ treePut c.now
          (NewTransactionRecord c.txType c.amount c.description c.id c.now)
          (treeOf s2 c.userId) := by
        simpa [treeOf] using he
      rcases treePut_mem _ _ _ e he' with h | h
      · subst h
        exact List.mem_cons_self _ _
      · exact List.mem_cons_of_mem _ (hkb _ e h)
    · have he' : e ∈ treeOf s2 u := by
        simpa [treeOf, hu] using he
      exact List.mem_cons_of_mem _ (hkb _ e he')

/-- Running the same distinct-timestamp call sequence through both stores
keeps them related, produces identical result sequences, and keeps every
tree key among the timestamps consumed so far. -/
theorem runAdds_equiv (calls : List AddCall) :
    ∀ (s1 : LedgerStore) (s2 : LedgerStoreV2) (seen : List ℤ),
      storeRel s1 s2 → keysBound s2 seen →
      (∀ c ∈ calls, c.now ∉ seen) →
      ((calls.map AddCall.now).Pairwise (· ≠ ·)) →
      addResults s1 calls = addResultsV2 s2 calls ∧
      storeRel (runAdds s1 calls) (runAddsV2 s2 calls) ∧
      keysBound (runAddsV2 s2 calls) (calls.map AddCall.now ++ seen) := by
  induction calls with
  | nil =>
      intro s1 s2 seen hrel hkb _ _
      exact ⟨rfl, hrel, by simpa using hkb⟩
  | cons c rest ih =>
      intro s1 s2 seen hrel hkb hnot hpair
      have hfresh : c.now ∉ (treeOf s2 c.userId).map Prod.fst := by
        intro hmem
        rcases List.mem_map.mp hmem with ⟨e, he, hke⟩
        have hseen : e.1 ∈ seen := hkb c.userId e he
        rw [hke] at hseen
        exact hnot c (List.mem_cons_self c rest) hseen
      have hstep := addCall_step s1 s2 hrel c hfresh
      have hkb2 := keysBound_step s2 seen c hkb
      rw [List.map_cons, List.pairwise_cons] at hpair
      have hrest := ih _ _ (c.now :: seen) hstep.2 hkb2
        (fun c' hc' hin => by
          rcases List.mem_cons.mp hin with h | h
          · exact hpair.1 c'.now (List.mem_map_of_mem AddCall.now hc') h.symm
          · exact hnot c' (List.mem_cons_of_mem c hc') h)
        hpair.2
      refine ⟨?_, hrest.2.1, ?_⟩
      · show (AddTransaction s1 c.userId c.txType c.amount
            c.description c.id c.now).2 :: addResults _ rest =
          (AddTransactionV2 s2 c.userId c.txType c.amount
            c.description c.id c.now).2 :: addResultsV2 _ rest
        rw [hstep.1, hrest.1]
      · refine keysBound_mono _ _ _ hrest.2.2 ?_
        intro x hx
        simp only [List.mem_append, List.mem_cons, List.map_cons] at hx ⊢
        tauto

/-- The V2 iterator loop collects exactly the records matching the range
filter, provided the tree keys are sorted and agree with the records'
timestamps. -/
theorem collect_eq_filter (ost oet : Option ℤ) :
    ∀ t : List (ℤ × TransactionRecord),
      ((t.map Prod.fst).Sorted (· < ·)) →
      (∀ e ∈ t, e.1 = e.2.timestamp) →
      collectInRange ost oet t = (t.map Prod.snd).filter (matchesFilter ost oet) := by
  intro t
  induction t with
  | nil =>
      intro _ _
      rfl
  | cons e rest ih =>
      intro hk hkv
      rw [List.map_cons, List.sorted_cons] at hk
      have hts : e.1 = e.2.timestamp := hkv e (List.mem_cons_self e rest)
      have hkvr : ∀ x ∈ rest, x.1 = x.2.timestamp :=
        fun x hx => hkv x (List.mem_cons_of_mem e hx)
      have hih := ih hk.2 hkvr
      have hrest_gt : ∀ x ∈ rest, e.1 < x.1 := by
        intro x hx
        exact hk.1 x.1 (List.mem_map_of_mem Prod.fst hx)
      rcases ost with _ | st
      · rcases oet with _ | et
        · have hm : matchesFilter none none e.2 = true := by
            simp [matchesFilter]
          simp only [collectInRange, List.map_cons, List.filter_cons, hm,
            if_true]
          simp only [hih]
          simp
        · by_cases hbe : et < e.1
          · have hm : (((e :: rest).map Prod.snd).filter
                (matchesFilter none (some et))) = [] := by
              rw [List.filter_eq_nil_iff]
              intro x hx
              rcases List.mem_map.mp hx with ⟨e', he', hxe⟩
              have hgt : et < x.timestamp := by
                rcases List.mem_cons.mp he' with h | h
                · subst h
                  rw [← hxe, ← hts]
                  exact hbe
                · have := hrest_gt e' h
                  have := hkvr e' h
                  rw [← hxe]
                  omega
              simp [matchesFilter]
              omega
            rw [hm]
            simp [collectInRange, hbe]
          · have hle : e.2.timestamp ≤ et := by
              omega
            have hm : matchesFilter none (some et) e.2 = true := by
              simp [matchesFilter]
              exact hle
            simp only [collectInRange, List.map_cons, List.filter_cons, hm,
              if_true]
            simp only [hih]
            simp [hbe]
      · rcases oet with _ | et
        · by_cases hse : e.1 < st
          · have hm : matchesFilter (some st) none e.2 = false := by
              simp [matchesFilter]
              omega
            simp only [collectInRange, List.map_cons, List.filter_cons, hm]
            simp only [hih]
            simp [hse]
          · have hm : matchesFilter (some st) none e.2 = true := by
              simp [matchesFilter]
              omega
            simp only [collectInRange, List.map_cons, List.filter_cons, hm,
              if_true]
            simp only [hih]
            simp [hse]
        · by_cases hse : e.1 < st
          · have hm : matchesFilter (some st) (some et) e.2 = false := by
              simp [matchesFilter]
              intro h
              omega
            simp only [collectInRange, List.map_cons, List.filter_cons, hm]
            simp only [hih]
            simp [hse]
          · by_cases hbe : et < e.1
            · have hm : (((e :: rest).map Prod.snd).filter
                  (matchesFilter (some st) (some et))) = [] := by
                rw [List.filter_eq_nil_iff]
                intro x hx
                rcases List.mem_map.mp hx with ⟨e', he', hxe⟩
                have hgt : et < x.timestamp := by
                  rcases List.mem_cons.mp he' with h | h
                  · subst h
                    rw [← hxe, ← hts]
                    exact hbe
                  · have := hrest_gt e' h
                    have := hkvr e' h
                    rw [← hxe]
                    omega
                simp [matchesFilter]
                intro h
                omega
              rw [hm]
              simp [collectInRange, hse, hbe]
            · have hm : matchesFilter (some st) (some et) e.2 = true := by
                simp [matchesFilter]
                omega
              simp only [collectInRange, List.map_cons, List.filter_cons, hm,
                if_true]
              simp only [hih]
              simp [hse, hbe]

theorem pageStartV2_of_fits (page ps : ℤ) (hf : pageArithFitsV2 page ps) :
    pageStartV2 page ps = (pageClamp page - 1) * ps := by
  unfold pageStartV2
  rw [wrap64_eq_self _ hf.1, wrap64_eq_self _ hf.2.1]

theorem pageStartV2_nonneg (page ps : ℤ) (hf : pageArithFitsV2 page ps)
    (hps : 0 ≤ ps) : 0 ≤ pageStartV2 page ps := by
  rw [pageStartV2_of_fits page ps hf]
  have := pageClamp_ge_one page
  exact mul_nonneg (by omega) hps

theorem pageCoreV2_eq (t : List (ℤ × TransactionRecord)) (ost oet : Option ℤ)
    (page ps : ℤ) (hf : pageArithFitsV2 page ps) (hps : 0 ≤ ps) :
    pageCoreV2 t ost oet page ps =
      some ⟨((collectInRange ost oet t).take
          (min (pageStartV2 page ps + ps)
            ((collectInRange ost oet t).length : ℤ)).toNat).drop
          (pageStartV2 page ps).toNat,
        ((collectInRange ost oet t).length : ℤ)⟩ := by
  have h0 : 0 ≤ pageStartV2 page ps := pageStartV2_nonneg page ps hf hps
  unfold pageCoreV2
  have hw : wrap64 (pageStartV2 page ps + ps) = pageStartV2 page ps + ps := by
    rw [pageStartV2_of_fits page ps hf]
    exact wrap64_eq_self _ hf.2.2
  rw [hw]
  have hstop : (if pageStartV2 page ps + ps >
        ((collectInRange ost oet t).length : ℤ)
      then ((collectInRange ost oet t).length : ℤ)
      else pageStartV2 page ps + ps) =
      min (pageStartV2 page ps + ps)
        ((collectInRange ost oet t).length : ℤ) := by
    by_cases h : pageStartV2 page ps + ps >
        ((collectInRange ost oet t).length : ℤ)
    · rw [if_pos h, min_eq_right (le_of_lt h)]
    · rw [if_neg h, min_eq_left (not_lt.mp h)]
  rw [hstop]
  by_cases hearly : pageStartV2 page ps ≥
      ((collectInRange ost oet t).length : ℤ)
  · rw [if_pos hearly]
    have hnil : ((collectInRange ost oet t).take
        (min (pageStartV2 page ps + ps)
          ((collectInRange ost oet t).length : ℤ)).toNat).drop
        (pageStartV2 page ps).toNat = [] := by
      apply List.drop_eq_nil_of_le
      rw [List.length_take]
      omega
    rw [hnil]
  · rw [if_neg hearly]
    push_neg at hearly
    have hcond : 0 ≤ pageStartV2 page ps ∧
        pageStartV2 page ps ≤ min (pageStartV2 page ps + ps)
          ((collectInRange ost oet t).length : ℤ) ∧
        min (pageStartV2 page ps + ps)
          ((collectInRange ost oet t).length : ℤ) ≤
          ((collectInRange ost oet t).length : ℤ) := by
      omega
    unfold goSlice
    rw [if_pos hcond]

/-- On related account data, the sorted-slice pagination and the
tree-walk pagination agree for every legal query with compatible bounds. -/
theorem pageCore_equiv (t : List (ℤ × TransactionRecord))
    (hkt : (t.map Prod.fst).Sorted (· < ·))
    (hkv : ∀ e ∈ t, e.1 = e.2.timestamp)
    (ost oet : Option ℤ) (page ps : ℤ) (_hpage : 1 ≤ page) (hps : 1 ≤ ps)
    (hc : ∀ st ∈ ost, ∀ et ∈ oet, st ≤ et)
    (hf : pageArithFits (t.map Prod.snd) ost page ps) :
    pageCore (t.map Prod.snd) ost oet page ps = pageCoreV2 t ost oet page ps := by
  have hps0 : (0:ℤ) ≤ ps := by omega
  have hfv2 : pageArithFitsV2 page ps := by
    obtain ⟨h1, h2, h3, h4⟩ := hf
    refine ⟨h1, h2, ?_⟩
    have hlow : (0:ℤ) ≤ (lowIdx (t.map Prod.snd) ost : ℤ) := Int.ofNat_nonneg _
    have hpc := pageClamp_ge_one page
    have hprod : 0 ≤ (pageClamp page - 1) * ps := mul_nonneg (by omega) (by omega)
    obtain ⟨h4a, h4b⟩ := h4
    exact ⟨by omega, by omega⟩
  have hle : (t.map Prod.snd).Sorted txLE :=
    (values_sorted_lt t hkt hkv).imp fun h => le_of_lt h
  rw [pageCore_eq _ _ _ _ _ hf hps0, pageCoreV2_eq _ _ _ _ _ hfv2 hps0,
    collect_eq_filter ost oet t hkt hkv,
    filter_matches_eq_slice _ hle ost oet hc]
  have hlh : lowIdx (t.map Prod.snd) ost ≤ highIdx (t.map Prod.snd) oet :=
    lowIdx_le_highIdx_compat _ ost oet hc
  have hhn : highIdx (t.map Prod.snd) oet ≤ (t.map Prod.snd).length :=
    highIdx_le_length _ oet
  have hlen : (((t.map Prod.snd).take (highIdx (t.map Prod.snd) oet)).drop
      (lowIdx (t.map Prod.snd) ost)).length =
      highIdx (t.map Prod.snd) oet - lowIdx (t.map Prod.snd) ost := by
    rw [List.length_drop, List.length_take]
    omega
  have hA : pageStartIdx (t.map Prod.snd) ost page ps =
      (lowIdx (t.map Prod.snd) ost : ℤ) + pageStartV2 page ps := by
    rw [pageStartIdx_of_fits _ _ _ _ hf, pageStartV2_of_fits page ps hfv2]
  have hA2 : 0 ≤ pageStartV2 page ps := pageStartV2_nonneg page ps hfv2 hps0
  have hslice : ((((t.map Prod.snd).take (highIdx (t.map Prod.snd) oet)).drop
        (lowIdx (t.map Prod.snd) ost)).take
        (min (pageStartV2 page ps + ps)
          (((((t.map Prod.snd).take (highIdx (t.map Prod.snd) oet)).drop
            (lowIdx (t.map Prod.snd) ost))).length : ℤ)).toNat).drop
        (pageStartV2 page ps).toNat =
      ((t.map Prod.snd).take
        (min (lowIdx (t.map Prod.snd) ost +
          (min (pageStartV2 page ps + ps)
            (((((t.map Prod.snd).take (highIdx (t.map Prod.snd) oet)).drop
              (lowIdx (t.map Prod.snd) ost))).length : ℤ)).toNat)
          (highIdx (t.map Prod.snd) oet))).drop
        (lowIdx (t.map Prod.snd) ost + (pageStartV2 page ps).toNat) := by
    rw [List.take_drop, List.take_take, List.drop_drop]
  rw [hslice]
  have hBeq : (pageEndIdx (t.map Prod.snd) ost oet page ps).toNat =
      min (lowIdx (t.map Prod.snd) ost +
        (min (pageStartV2 page ps + ps)
          (((((t.map Prod.snd).take (highIdx (t.map Prod.snd) oet)).drop
            (lowIdx (t.map Prod.snd) ost))).length : ℤ)).toNat)
        (highIdx (t.map Prod.snd) oet) := by
    rw [pageEndIdx_eq_min _ _ _ _ _ hf, hA, hlen]
    omega
  have hAeq : (pageStartIdx (t.map Prod.snd) ost page ps).toNat =
      lowIdx (t.map Prod.snd) ost + (pageStartV2 page ps).toNat := by
    rw [hA]
    omega
  have hCnt : filteredCount (t.map Prod.snd) ost oet =
      ((((((t.map Prod.snd).take (highIdx (t.map Prod.snd) oet)).drop
        (lowIdx (t.map Prod.snd) ost))).length : ℕ) : ℤ) := by
    unfold filteredCount
    rw [hlen]
    omega
  rw [hBeq, hAeq, hCnt]

theorem getPageV2_none (s : LedgerStoreV2) (u : String) (ost oet : Option ℤ)
    (page ps : ℤ) (h : s.users u = none) :
    GetPaginatedTransactionsV2 s u ost oet page ps = some ⟨[], 0⟩ := by
  unfold GetPaginatedTransactionsV2
  rw [h]

theorem getPageV2_some (s : LedgerStoreV2) (u : String) (ost oet : Option ℤ)
    (page ps : ℤ) (ledger : userLedgerV2) (h : s.users u = some ledger) :
    GetPaginatedTransactionsV2 s u ost oet page ps =
      pageCoreV2 ledger.tree ost oet page ps := by
  unfold GetPaginatedTransactionsV2
  rw [h]

/-- Claim C9, counterexample to the statement as written: after one
deposit at timestamp 5, the query startTime = 10, endTime = 1 (inverted
range) makes the sorted-slice store report TotalCount = -1 while the
red-black-tree store reports TotalCount = 0 — the two stores disagree. -/
theorem C9_counterexample :
    GetPaginatedTransactions
        (runAdds NewLedgerStore [⟨"acct", TransactionType.deposit, 5, "d", 0, 5⟩])
        "acct" (some 10) (some 1) 1 1 ≠
      GetPaginatedTransactionsV2
        (runAddsV2 NewStoreV2 [⟨"acct", TransactionType.deposit, 5, "d", 0, 5⟩])
        "acct" (some 10) (some 1) 1 1 := by
  decide

/-- Claim C9 (amended): for every sequence of AddTransaction calls with
pairwise distinct timestamps, the two store implementations accept and
reject exactly the same calls with the same results, report the same
balances, and — for every query with page ≥ 1, pageSize ≥ 1, a
non-inverted time range (startTime ≤ endTime whenever both are present;
on an inverted range the sorted-slice store reports the negative
difference endIdx - startIdx where the tree store reports 0) and page
arithmetic inside int64 (under wrap the two stores slice at different
wrapped offsets) — return the same record lists in the same order with
the same total counts. -/
theorem C9_store_equivalence (calls : List AddCall)
    (hdist : (calls.map AddCall.now).Pairwise (· ≠ ·)) :
    addResults NewLedgerStore calls = addResultsV2 NewStoreV2 calls ∧
    (∀ u, GetBalance (runAdds NewLedgerStore calls) u =
      GetBalanceV2 (runAddsV2 NewStoreV2 calls) u) ∧
    (∀ (u : String) (ost oet : Option ℤ) (page ps : ℤ), 1 ≤ page → 1 ≤ ps →
      (∀ st ∈ ost, ∀ et ∈ oet, st ≤ et) →
      pageArithFits (txsOf (runAdds NewLedgerStore calls) u) ost page ps →
      GetPaginatedTransactions (runAdds NewLedgerStore calls) u ost oet page ps =
        GetPaginatedTransactionsV2 (runAddsV2 NewStoreV2 calls) u ost oet page ps) := by
  have hinit : storeRel NewLedgerStore NewStoreV2 := fun u => Or.inl ⟨rfl, rfl⟩
  have hkb : keysBound NewStoreV2 [] := fun u e he => absurd he (List.not_mem_nil e)
  have hmain := runAdds_equiv calls NewLedgerStore NewStoreV2 []
    hinit hkb (fun c _ h => absurd h (List.not_mem_nil _)) hdist
  refine ⟨hmain.1, ?_, ?_⟩
  · intro u
    rcases hmain.2.1 u with ⟨h1, h2⟩ | ⟨l1, l2, h1, h2, hrel⟩
    · unfold GetBalance GetBalanceV2
      rw [h1, h2]
    · unfold GetBalance GetBalanceV2
      rw [h1, h2]
      show (l1.balance, (none : Option String)) = (l2.balance, none)
      rw [hrel.1]
  · intro u ost oet page ps hpage hps hc hf
    rcases hmain.2.1 u with ⟨h1, h2⟩ | ⟨l1, l2, h1, h2, hrel⟩
    · rw [getPage_none _ _ _ _ _ _ h1, getPageV2_none _ _ _ _ _ _ h2]
    · have hl : txsOf (runAdds NewLedgerStore calls) u = l1.transactions := by
        simp [txsOf, h1]
      rw [hl, hrel.2.1] at hf
      rw [getPage_some _ _ _ _ _ _ _ h1, getPageV2_some _ _ _ _ _ _ _ h2,
        hrel.2.1]
      exact pageCore_equiv l2.tree hrel.2.2.2 hrel.2.2.1 ost oet page ps
        hpage hps hc hf

theorem C9_store_equivalence_witness :
    ((([⟨"acct", TransactionType.deposit, 5, "d", 0, 5⟩,
        ⟨"acct", TransactionType.deposit, 9, "e", 1, 6⟩] :
      List AddCall).map AddCall.now).Pairwise (· ≠ ·)) ∧
    addResults NewLedgerStore
        [⟨"acct", TransactionType.deposit, 5, "d", 0, 5⟩,
         ⟨"acct", TransactionType.deposit, 9, "e", 1, 6⟩] =
      addResultsV2 NewStoreV2
        [⟨"acct", TransactionType.deposit, 5, "d", 0, 5⟩,
         ⟨"acct", TransactionType.deposit, 9, "e", 1, 6⟩] ∧
    GetBalance (runAdds NewLedgerStore
        [⟨"acct", TransactionType.deposit, 5, "d", 0, 5⟩,
         ⟨"acct", TransactionType.deposit, 9, "e", 1, 6⟩]) "acct" =
      GetBalanceV2 (runAddsV2 NewStoreV2
        [⟨"acct", TransactionType.deposit, 5, "d", 0, 5⟩,
         ⟨"acct", TransactionType.deposit, 9, "e", 1, 6⟩]) "acct" ∧
    GetPaginatedTransactions (runAdds NewLedgerStore
        [⟨"acct", TransactionType.deposit, 5, "d", 0, 5⟩,
         ⟨"acct", TransactionType.deposit, 9, "e", 1, 6⟩]) "acct"
        (some 0) (some 9) 1 10 =
      GetPaginatedTransactionsV2 (runAddsV2 NewStoreV2
        [⟨"acct", TransactionType.deposit, 5, "d", 0, 5⟩,
         ⟨"acct", TransactionType.deposit, 9, "e", 1, 6⟩]) "acct"
        (some 0) (some 9) 1 10 :=
  ⟨by decide,
   (C9_store_equivalence _ (by decide)).1,
   (C9_store_equivalence _ (by decide)).2.1 "acct",
   (C9_store_equivalence _ (by decide)).2.2 "acct" (some 0) (some 9) 1 10
     (by norm_num) (by norm_num) (by decide) (by decide)⟩
